import Mathlib

set_option maxRecDepth 4000

/-!
Shallow embedding of the edit-tag codec of `src/edits/edit.py` and of the
edit-distance gating of `src/gec/utils/postprocess.py` (CAMeL-Lab/text-editing).

Python strings are modelled as `List Char`.  Code paths that raise
(`assert` failures, `IndexError` on out-of-range indexing or `pop` from an
empty list, and the `pdb.set_trace()` traps, which are fatal in batch use)
are modelled by `Option`, with `none` for the raising path.

The regular expressions used by the code are tokenizers of a fixed shape
(`X_\[.*?\]+` alternatives, then `K\*`/`D\*` or `D+`/`K+`, then `.`); they
are modelled by direct recursive scanners below, including the facts that a
lazy `.*?` stops at the first `]` and cannot cross a newline, that the
trailing `\]+` is greedy, and that an unmatched character (only possible
for a newline, since `.` matches anything else) is skipped by `findall`.
-/

/-- Scan for the first `]` in a string: returns the (bracket-free) prefix and
the suffix starting at that `]`.  Fails if a newline occurs first, since the
`.` of a lazy `.*?` cannot cross a newline. -/
def findClose : List Char → Option (List Char × List Char)
  | [] => none
  | c :: rest =>
    if c = ']' then some ([], c :: rest)
    else if c = '\n' then none
    else (findClose rest).map fun p => (c :: p.1, p.2)

theorem findClose_eq : ∀ (l pre suf : List Char),
    findClose l = some (pre, suf) → l = pre ++ suf := by
  intro l
  induction l with
  | nil => intro pre suf h; simp [findClose] at h
  | cons c rest ih =>
    intro pre suf h
    simp only [findClose] at h
    split at h
    · rw [Option.some_inj] at h
      have h1 : pre = [] := by
        have := congrArg Prod.fst h; simpa using this.symm
      have h2 : suf = c :: rest := by
        have := congrArg Prod.snd h; simpa using this.symm
      rw [h1, h2]
      simp
    · split at h
      · exact absurd h (by simp)
      · rw [Option.map_eq_some'] at h
        obtain ⟨⟨p1, p2⟩, hp, he⟩ := h
        have h1 : pre = c :: p1 := by
          have := congrArg Prod.fst he; simpa using this.symm
        have h2 : suf = p2 := by
          have := congrArg Prod.snd he; simpa using this.symm
        rw [h1, h2]
        simp only [List.cons_append, List.cons.injEq, true_and]
        exact ih p1 p2 hp

theorem findClose_suf_head : ∀ (l pre suf : List Char),
    findClose l = some (pre, suf) → suf.head? = some ']' := by
  intro l
  induction l with
  | nil => intro pre suf h; simp [findClose] at h
  | cons c rest ih =>
    intro pre suf h
    simp only [findClose] at h
    split at h
    · rename_i hc
      rw [Option.some_inj] at h
      have h2 : suf = c :: rest := by
        have := congrArg Prod.snd h; simpa using this.symm
      rw [h2]
      simp [hc]
    · split at h
      · exact absurd h (by simp)
      · rw [Option.map_eq_some'] at h
        obtain ⟨⟨p1, p2⟩, hp, he⟩ := h
        have h2 : suf = p2 := by
          have := congrArg Prod.snd he; simpa using this.symm
        rw [h2]
        exact ih p1 p2 hp

/-- Take one bracketed op `x_[...]...]` from `x :: l` (the argument `l` is the
part after the leading letter `x`): the lazy `.*?` stops at the first `]`, the
greedy `\]+` then takes the whole run of `]`.  Returns the matched op and the
rest of the string. -/
def takeBracket (x : Char) (l : List Char) : Option (List Char × List Char) :=
  match l with
  | a :: b :: tail =>
    if a = '_' ∧ b = '[' then
      match findClose tail with
      | some (payload, suf) =>
          some (x :: '_' :: '[' :: (payload ++ suf.takeWhile (· = ']')),
                suf.dropWhile (· = ']'))
      | none => none
    else none
  | _ => none

theorem takeBracket_rest_lt (x : Char) (l op rem : List Char)
    (h : takeBracket x l = some (op, rem)) : rem.length < l.length := by
  match l with
  | [] => simp [takeBracket] at h
  | [a] => simp [takeBracket] at h
  | a :: b :: tail =>
    simp only [takeBracket] at h
    split at h
    case isTrue =>
      cases hfc : findClose tail with
      | none => rw [hfc] at h; exact absurd h (by simp)
      | some p =>
        obtain ⟨payload, suf⟩ := p
        rw [hfc] at h
        rw [Option.some_inj] at h
        have hrem : rem = suf.dropWhile (· = ']') := by
          have := congrArg Prod.snd h; simpa using this.symm
        have h1 : (suf.dropWhile (· = ']')).length ≤ suf.length :=
          (List.dropWhile_sublist _).length_le
        have h2 : tail = payload ++ suf := findClose_eq _ _ _ hfc
        have h3 : suf.length ≤ tail.length := by
          rw [h2]; simp
        rw [hrem]
        simp only [List.length_cons]
        omega
    case isFalse => exact absurd h (by simp)

/-- Tokenizer for the char-edit regex of `SubwordEdit.apply` and
`SubwordEdit.is_applicable`:
`I_\[.*?\]+|A_\[.*?\]+|R_\[.*?\]+|K\*|D\*|.` applied with `findall`. -/
def findOpsA (l : List Char) : List (List Char) :=
  match l with
  | [] => []
  | c :: rest =>
    if c = 'I' ∨ c = 'A' ∨ c = 'R' then
      match h : takeBracket c rest with
      | some (op, rem) => op :: findOpsA rem
      | none => [c] :: findOpsA rest
    else if (c = 'K' ∨ c = 'D') ∧ rest.head? = some '*' then
      [c, '*'] :: findOpsA rest.tail
    else if c = '\n' then findOpsA rest
    else [c] :: findOpsA rest
  termination_by l.length
  decreasing_by
  · simp only [List.length_cons]
    exact Nat.lt_succ_of_lt (takeBracket_rest_lt _ _ _ _ h)
  · simp
  · simp only [List.length_cons]
    have : rest.tail.length = rest.length - 1 := List.length_tail rest
    omega
  · simp
  · simp

/-- Tokenizer for the grouping regex of `compress_edit`:
`I_\[.*?\]+|R_\[.*?\]+|A_\[.*?\]+|D+|K+|.`. -/
def findOpsC (l : List Char) : List (List Char) :=
  match l with
  | [] => []
  | c :: rest =>
    if c = 'I' ∨ c = 'R' ∨ c = 'A' then
      match h : takeBracket c rest with
      | some (op, rem) => op :: findOpsC rem
      | none => [c] :: findOpsC rest
    else if c = 'D' ∨ c = 'K' then
      (c :: rest.takeWhile (· = c)) :: findOpsC (rest.dropWhile (· = c))
    else if c = '\n' then findOpsC rest
    else [c] :: findOpsC rest
  termination_by l.length
  decreasing_by
  · simp only [List.length_cons]
    exact Nat.lt_succ_of_lt (takeBracket_rest_lt _ _ _ _ h)
  · simp
  · simp only [List.length_cons]
    have := (List.dropWhile_sublist (· = c) (l := rest)).length_le
    omega
  · simp
  · simp

/-- Tokenizer for the op regex of `SubwordEdits._project_edit`:
`I_\[.*?\]+|R_\[.*?\]+|D+|K+|.` (no `A_` alternative). -/
def findOpsP (l : List Char) : List (List Char) :=
  match l with
  | [] => []
  | c :: rest =>
    if c = 'I' ∨ c = 'R' then
      match h : takeBracket c rest with
      | some (op, rem) => op :: findOpsP rem
      | none => [c] :: findOpsP rest
    else if c = 'D' ∨ c = 'K' then
      (c :: rest.takeWhile (· = c)) :: findOpsP (rest.dropWhile (· = c))
    else if c = '\n' then findOpsP rest
    else [c] :: findOpsP rest
  termination_by l.length
  decreasing_by
  · simp only [List.length_cons]
    exact Nat.lt_succ_of_lt (takeBracket_rest_lt _ _ _ _ h)
  · simp
  · simp only [List.length_cons]
    have := (List.dropWhile_sublist (· = c) (l := rest)).length_le
    omega
  · simp
  · simp

/-- `re.sub(r'X_\[(.*?)\]', r'\1', op)` for an op produced by one of the
tokenizers above (shape `X_[payload]]...]` with a bracket-free payload, or a
single character): the first `X_[...]` including exactly one closing `]` is
replaced by the payload; everything after it is kept.  On a bare letter (no
bracket) there is no regex match and the op is returned unchanged. -/
def stripBr (op : List Char) : List Char :=
  match op with
  | x :: a :: b :: tail =>
    if a = '_' ∧ b = '[' then
      match findClose tail with
      | some (payload, suf) => payload ++ suf.drop 1
      | none => x :: a :: b :: tail
    else op
  | _ => op

/-- `subword.replace('##', '')`: remove non-overlapping occurrences of `##`,
scanning left to right. -/
def replaceHH : List Char → List Char
  | [] => []
  | [c] => [c]
  | c :: d :: rest =>
    if c = '#' ∧ d = '#' then replaceHH rest else c :: replaceHH (d :: rest)

/-- `'##' in subword`: substring test for `##`. -/
def containsHH : List Char → Bool
  | [] => false
  | [_] => false
  | c :: d :: rest =>
    if c = '#' ∧ d = '#' then true else containsHH (d :: rest)

/-- Python `str.strip()`: remove ASCII whitespace from both ends. -/
def isPySpace (c : Char) : Bool :=
  c = ' ' ∨ c = '\t' ∨ c = '\n' ∨ c = '\r' ∨ c = '\x0b' ∨ c = '\x0c'

def pyStrip (s : List Char) : List Char :=
  ((s.dropWhile isPySpace).reverse.dropWhile isPySpace).reverse

/-- Python `t in s` on strings: `t` occurs in `s` as a contiguous substring. -/
def strIn (t s : List Char) : Bool :=
  match s with
  | [] => t = []
  | _ :: rest => t.isPrefixOf s || strIn t rest

/-- Build the literal text of an `I_[...]` op. -/
def mkI (p : List Char) : List Char := 'I' :: '_' :: '[' :: p ++ [']']

/-- Build the literal text of an `R_[...]` op. -/
def mkR (p : List Char) : List Char := 'R' :: '_' :: '[' :: p ++ [']']

/-- Build the literal text of an `A_[...]` op. -/
def mkA (p : List Char) : List Char := 'A' :: '_' :: '[' :: p ++ [']']

/-! ## SubwordEdit: applier and validator (`src/edits/edit.py`, lines 116-245) -/

namespace SubwordEdit

/-- `SubwordEdit._apply_keep_star`: the run of characters a `K*` keeps, given
the suffix of the piece from the cursor on and the ops after the `K*`. -/
def applyKeepStar (s : List Char) (remaining : List (List Char)) : List Char :=
  let inserts := remaining.filter fun x => x.head? = some 'I' ∨ x.head? = some 'A'
  if inserts.length = remaining.length then s
  else s.take (s.length - (remaining.length - inserts.length))

/-- `SubwordEdit._apply_delete_star`: how many characters a `D*` skips
(`len(subword[: -(len(remaining) - len(inserts))])`, or everything). -/
def applyDeleteStar (s : List Char) (remaining : List (List Char)) : Nat :=
  let inserts := remaining.filter fun x => x.head? = some 'I' ∨ x.head? = some 'A'
  if inserts.length = remaining.length then s.length
  else s.length - (remaining.length - inserts.length)

/-- The loop of `SubwordEdit._apply_char_edits`: walk the op tokens with a
read cursor `idx` into the piece `s`; `i` is the position of the current op in
the full token list (the `A_` branch distinguishes `i = 0`).  `none` models
the `IndexError` a `K` raises when the cursor is past the end. -/
def applyCE (s : List Char) : Nat → Nat → List (List Char) → Option (List Char)
  | _, _, [] => some []
  | idx, i, e :: rest =>
    if e = ['K'] then
      match s[idx]? with
      | some ch => (applyCE s (idx + 1) (i + 1) rest).map (ch :: ·)
      | none => none
    else if e = ['D'] then applyCE s (idx + 1) (i + 1) rest
    else if e.head? = some 'I' then
      (applyCE s idx (i + 1) rest).map (stripBr e ++ ·)
    else if e.head? = some 'A' then
      let t := stripBr e
      let piece := if i ≠ 0 then ' ' :: t else t ++ [' ']
      (applyCE s idx (i + 1) rest).map (piece ++ ·)
    else if e = ['K', '*'] then
      let keep := applyKeepStar (s.drop idx) rest
      (applyCE s (idx + keep.length) (i + 1) rest).map (keep ++ ·)
    else if e = ['D', '*'] then
      applyCE s (idx + applyDeleteStar (s.drop idx) rest) (i + 1) rest
    else if e.head? = some 'R' then
      (applyCE s (idx + 1) (i + 1) rest).map (stripBr e ++ ·)
    else applyCE s idx (i + 1) rest

/-- `SubwordEdit._apply_append`: collect every `A_[...]` op of the whole tag;
with `keep` the piece survives followed by the space-joined literals,
otherwise only the concatenated literals remain. -/
def findAOps (l : List Char) : List (List Char) :=
  match l with
  | [] => []
  | c :: rest =>
    if c = 'A' then
      match h : takeBracket c rest with
      | some (op, rem) => op :: findAOps rem
      | none => findAOps rest
    else findAOps rest
  termination_by l.length
  decreasing_by
  · simp only [List.length_cons]
    exact Nat.lt_succ_of_lt (takeBracket_rest_lt _ _ _ _ h)
  · simp
  · simp

def applyAppend (edit subword : List Char) (keep : Bool) : List Char :=
  let inserts := (findAOps edit).map stripBr
  if keep then subword ++ [' '] ++ (List.intercalate [' '] inserts)
  else inserts.flatten

/-- `SubwordEdit.apply(subword)` where the receiver's tag is `edit`. -/
def apply (edit subword : List Char) : Option (List Char) :=
  if edit = ['K'] then some subword
  else if edit.take 2 = ['K', 'A'] then some (applyAppend edit subword true)
  else if edit.take 2 = ['D', 'A'] then some (applyAppend edit subword false)
  else
    let s := replaceHH subword
    (applyCE s 0 0 (findOpsA edit)).map fun r =>
      if containsHH subword then '#' :: '#' :: r else r

/-- The filter of `SubwordEdit.is_applicable`: drop ops starting with `A`,
`M` or `I` (they consume no source characters). -/
def opsWoAMI (ops : List (List Char)) : List (List Char) :=
  ops.filter fun e =>
    ¬(e.head? = some 'A') ∧ ¬(e.head? = some 'M') ∧ ¬(e.head? = some 'I')

/-- The cursor loop of `SubwordEdit.is_applicable`; returns the final `idx`.
A `K*`/`D*` in last position sets `idx` to the end of the piece (or leaves a
larger `idx`) and breaks; elsewhere it repositions `idx` to
`len(subword) - len(remaining ops)`. -/
def iaLoop (slen : Nat) : Nat → List (List Char) → Nat
  | idx, [] => idx
  | idx, e :: rest =>
    if e.head? = some 'R' ∨ e = ['K'] ∨ e = ['D'] then iaLoop slen (idx + 1) rest
    else if e = ['K', '*'] ∨ e = ['D', '*'] then
      if rest = [] then max idx slen
      else iaLoop slen (slen - rest.length) rest
    else iaLoop slen idx rest

/-- `SubwordEdit.is_applicable(subword)` with the receiver's tag `edit`. -/
def is_applicable (edit subword : List Char) : Bool :=
  let s := replaceHH subword
  let owa := opsWoAMI (findOpsA edit)
  if edit = ['K'] ∨ edit.take 2 = ['K', 'A'] then true
  else if s.length < owa.length then false
  else ¬(iaLoop s.length 0 owa < s.length)

end SubwordEdit

/-! ## Word-level encoder (`src/edits/edit.py`, lines 5-114 and 382-440) -/

/-- The scanning loop of the general fallback of `get_edits`: returns the
accumulated edit plus the unscanned remainders of source and target when one
of the two cursors reaches its end. -/
def geLoop : List Char → List Char → List Char × List Char × List Char
  | src, [] => ([], src, [])
  | [], t :: ts => ([], [], t :: ts)
  | c :: src, t :: ts =>
    if c ≠ ' ' then
      let r := geLoop src ts
      (mkR [t] ++ r.1, r.2.1, r.2.2)
    else
      let r := geLoop src (t :: ts)
      ('M' :: r.1, r.2.1, r.2.2)

/-- `get_edits(src_chars, tgt_chars)`; `none` models the failing
`assert j == len(tgt_chars)` of the general fallback. -/
def get_edits (src tgt : List Char) : Option (List Char) :=
  if tgt = [] then some (List.replicate src.length 'D')
  else if strIn tgt src then
    some (src.map fun c => if ¬(c ∈ tgt) then 'D' else 'K')
  else if (pyStrip src).length = 1 ∧ tgt.length = 1 then
    some ((src.map fun c => if c = ' ' then ['M'] else mkR [tgt.headI]).flatten)
  else
    let r := geLoop src tgt
    if r.2.2 = [] then some (r.1 ++ List.replicate r.2.1.length 'D')
    else none

/-- `is_merge(aligned_src_chars, aligned_tgt_chars)`: the concatenation of the
non-space source groups equals the concatenation of the target groups. -/
def is_merge (S T : List (List Char)) : Bool :=
  (S.filter (· ≠ [' '])).flatten = T.flatten

namespace Edit

/-- `Edit._replacments(src_chars, tgt_chars)`. -/
def replacments (src tgt : List Char) : List Char :=
  if tgt.length = 1 then mkR tgt
  else if src.length = tgt.length then
    ((src.zip tgt).map fun p =>
      if p.1 = ' ' then 'M' :: mkI [p.2] else mkR [p.2]).flatten
  else
    ((tgt.take src.length).map fun t => mkR [t]).flatten ++
      ((tgt.drop src.length).map fun t => mkI [t]).flatten

/-- One group pair of `Edit._generate_detailed_edit`. -/
def groupEdit (s t : List Char) : Option (List Char) :=
  if s = t then some (if s = [' '] then ['S'] else List.replicate s.length 'K')
  else if s = [' '] ∧ t = [] then some ['M']
  else if s = [' '] ∧ t ≠ [] then some ('M' :: mkI t)
  else if s ≠ [] ∧ t = [] then
    some (s.map fun c => if c ≠ ' ' then 'D' else 'M')
  else if s = [] ∧ t ≠ [] then some (mkI t)
  else if s.length > t.length then get_edits s t
  else some (replacments s t)

/-- The loop of `Edit._generate_detailed_edit` over
`zip(aligned_src_chars, aligned_tgt_chars)`, concatenating per-group edits. -/
def detailedGo : List (List Char × List Char) → Option (List Char)
  | [] => some []
  | p :: ps =>
    match groupEdit p.1 p.2 with
    | none => none
    | some ge => (detailedGo ps).map (ge ++ ·)

/-- `Edit._generate_detailed_edit`. -/
def generate_detailed_edit (S T : List (List Char)) : Option (List Char) :=
  detailedGo (S.zip T)

/-- `Edit.create(aligned_src_chars, aligned_tgt_chars)`: returns the pair
`(word, edit)` of the constructed record. -/
def create (S T : List (List Char)) : Option (List Char × List Char) :=
  let word := S.flatten
  if S = T then some (word, ['K'])
  else if S = [[]] ∧ T ≠ [[]] then some (word, mkI T.flatten)
  else if S ≠ [[]] ∧ T = [[]] then some (word, ['D'])
  else if is_merge S T then
    some (word, S.map fun g => if g ≠ [' '] then 'K' else 'M')
  else (generate_detailed_edit S T).map fun e => (word, e)

end Edit

/-! ## Tag compression (`src/edits/edit.py`, lines 418-440) -/

/-- The accumulator loop of `compress_insertions`: `ins` is the pending
concatenation of stripped consecutive insertion payloads (flushed, when
non-empty, as a single `I_[...]` before the next non-insertion op and at the
end). -/
def ciGo (ins : List Char) : List (List Char) → List (List Char)
  | [] => if ins ≠ [] then [mkI ins] else []
  | e :: rest =>
    if e.take 2 = ['I', '_'] then ciGo (ins ++ stripBr e) rest
    else if ins ≠ [] then mkI ins :: e :: ciGo [] rest
    else e :: ciGo [] rest

def compress_insertions (edits : List (List Char)) : List (List Char) :=
  ciGo [] edits

def compress_edit (t : List Char) : List Char :=
  (compress_insertions (findOpsC t)).flatten

/-! ## Subword projector (`src/edits/edit.py`, lines 261-368) -/

/-- One piece's record, mirroring the `SubwordEdit` constructor fields. -/
structure SubwordEditRec where
  subword : List Char
  raw_subword : List Char
  edit : List Char
deriving DecidableEq, Repr

/-- `subword_edits[-1] += suffix`: append to the last accumulated tag;
`none` models the `IndexError` on an empty list. -/
def modLast : List (List Char) → List Char → Option (List (List Char))
  | [], _ => none
  | [e], suffix => some [e ++ suffix]
  | e :: rest, suffix => (modLast rest suffix).map (e :: ·)

/-- `re.sub(r"(?<!\[)S(?!\])", '', edit)`: drop every `S` that is not
immediately preceded by `[` and not immediately followed by `]`;
`prev` is the previous character of the original string. -/
def stripSFrom (prev : Option Char) : List Char → List Char
  | [] => []
  | c :: rest =>
    if c = 'S' ∧ ¬(prev = some '[') ∧ ¬(rest.head? = some ']') then
      stripSFrom (some c) rest
    else c :: stripSFrom (some c) rest

def stripS (l : List Char) : List Char := stripSFrom none l

namespace SubwordEdits

/-- The inner `while subword_len > 0` loop of `_project_edit` for one piece.
State: remaining character budget of the piece, cursor `idx` into the word
tag, pending buffer `buf`, finished per-piece tags `acc`, and the queues of
`I_[...]`/`R_[...]` ops.  `none` models the `pdb.set_trace()` traps (cursor
past the end of the tag, or a character that is none of `S I R M K D`) and
the `IndexError` of `pop(0)` on an empty queue or of `subword_edits[-1]` on
an empty list.  Every branch advances `idx` (queue ops are nonempty, which
the `op = []` guard makes explicit), so the loop terminates. -/
def projStep (edit : List Char) : Nat → Nat → List Char → List (List Char) →
    List (List Char) → List (List Char) →
    Option (Nat × List Char × List (List Char) × List (List Char) × List (List Char))
  | 0, idx, buf, acc, ins, rep => some (idx, buf, acc, ins, rep)
  | budget + 1, idx, buf, acc, ins, rep =>
    if hlt : idx < edit.length then
      let c := edit[idx]
      if c = 'S' then
        match modLast acc buf with
        | none => none
        | some acc' => projStep edit (budget + 1) (idx + 1) [] acc' ins rep
      else if c = 'I' then
        match ins with
        | [] => none
        | op :: more =>
          if h0 : op = [] then none
          else projStep edit (budget + 1) (idx + op.length) (buf ++ op) acc more rep
      else if c = 'R' then
        match rep with
        | [] => none
        | op :: more =>
          if h0 : op = [] then none
          else projStep edit budget (idx + op.length) (buf ++ op) acc ins more
      else if c = 'M' then
        if buf ≠ [] then
          match modLast acc buf with
          | none => none
          | some acc' => projStep edit (budget + 1) (idx + 1) [c] acc' ins rep
        else projStep edit (budget + 1) (idx + 1) [c] acc ins rep
      else if c = 'K' ∨ c = 'D' then
        projStep edit budget (idx + 1) (buf ++ [c]) acc ins rep
      else none
    else none
  termination_by _ idx => edit.length - idx
  decreasing_by
  · omega
  · have : op.length ≥ 1 := by
      cases op with
      | nil => exact absurd rfl h0
      | cons a b => simp
    omega
  · have : op.length ≥ 1 := by
      cases op with
      | nil => exact absurd rfl h0
      | cons a b => simp
    omega
  · omega
  · omega
  · omega

/-- The `for subword in subwords` loop of `_project_edit`. -/
def projWords (edit : List Char) : List (List Char) → Nat → List (List Char) →
    List (List Char) → List (List Char) →
    Option (Nat × List (List Char) × List (List Char) × List (List Char))
  | [], idx, acc, ins, rep => some (idx, acc, ins, rep)
  | sw :: rest, idx, acc, ins, rep =>
    match projStep edit (replaceHH sw).length idx [] acc ins rep with
    | none => none
    | some (idx', buf', acc', ins', rep') =>
        projWords edit rest idx' (acc' ++ [buf']) ins' rep'

/-- `SubwordEdits._project_edit(subwords, raw_subwords, edit)`: `none` models
any of its fatal paths (traps, queue underflow, or one of the two final
`assert`s failing). -/
def projectEdit (subwords raw : List (List Char)) (edit : List Char) :
    Option (List SubwordEditRec) :=
  let edit_ops := findOpsP edit
  let inserts := edit_ops.filter fun op => op.take 3 = ['I', '_', '[']
  let replaces := edit_ops.filter fun op => op.take 3 = ['R', '_', '[']
  match projWords edit subwords 0 [] inserts replaces with
  | none => none
  | some (idx, acc, _, _) =>
    let acc? : Option (List (List Char)) :=
      if idx < edit.length then modLast acc (edit.drop idx) else some acc
    match acc? with
    | none => none
    | some acc' =>
      if acc'.flatten = stripS edit then
        if acc'.length = subwords.length ∧ subwords.length = raw.length then
          some (((subwords.zip raw).zip acc').map fun p =>
            ⟨p.1.1, p.1.2, compress_edit p.2⟩)
        else none
      else none

/-- `SubwordEdits.create(aligned_src_word, edit, tokenizer)`, parameterized by
the tokenizer's (flattened) output `subwords`/`raw` as in the collaborator
contract; returns the `(subwords, edits)` fields of the record.  `none`
models a failing `assert`. -/
def create (subwords raw : List (List Char)) (edit : List Char) :
    Option (List (List Char) × List SubwordEditRec) :=
  if subwords.length = raw.length then
    if subwords = [] ∧ edit.head? = some 'I' then
      some ([], [⟨[], [], compress_edit edit⟩])
    else if edit = ['K'] then
      some (subwords, (subwords.zip raw).map fun p => ⟨p.1, p.2, ['K']⟩)
    else
      match projectEdit subwords raw edit with
      | none => none
      | some swes =>
        let sw' := subwords.filter (· ≠ [' '])
        if sw'.length = swes.length then some (sw', swes) else none
  else none

end SubwordEdits

/-! ## Post-processing gate (`src/gec/utils/postprocess.py`) -/

/-- The `DIGIT_MAPPER` dictionary as a function (`dict.get(c, c)`). -/
def DIGIT_MAPPER (c : Char) : Char :=
  if c = '٠' then '0' else if c = '١' then '1' else if c = '٢' then '2'
  else if c = '٣' then '3' else if c = '٤' then '4' else if c = '٥' then '5'
  else if c = '٦' then '6' else if c = '٧' then '7' else if c = '٨' then '8'
  else if c = '٩' then '9' else c

/-- The digits relevant to `re.search(r'\d', ...)` here: ASCII digits and the
Arabic-Indic digits of `DIGIT_MAPPER`.  (Unicode `\d` also matches other
decimal digits; for those `DIGIT_MAPPER` is the identity, so `norm_digits`
still returns an unchanged string and the embedding agrees with the code.) -/
def isReDigit (c : Char) : Bool :=
  c.isDigit ∨ ('٠' ≤ c ∧ c ≤ '٩')

/-- `norm_digits(string)`. -/
def norm_digits (s : List Char) : List Char :=
  if s.any isReDigit then s.map DIGIT_MAPPER else s

/-- One substitution pass of `pnx_re`: a punctuation character not followed
by a digit (`(?!\d)`) is wrapped in spaces. -/
def pnxSub (puncs : List Char) : List Char → List Char
  | [] => []
  | c :: rest =>
    if c ∈ puncs ∧ ¬((rest.head?.map isReDigit).getD false = true) then
      ' ' :: c :: ' ' :: pnxSub puncs rest
    else c :: pnxSub puncs rest

/-- `space_re.sub(' ', line)`: collapse every run of spaces to one space
(state machine over "was the previous character a space"). -/
def squeezeGo (prevSpace : Bool) : List Char → List Char
  | [] => []
  | c :: rest =>
    if c = ' ' then
      if prevSpace then squeezeGo true rest else ' ' :: squeezeGo true rest
    else c :: squeezeGo false rest

def squeezeSp (l : List Char) : List Char := squeezeGo false l

/-- One line of `pnx_tokenize`, with the punctuation class `puncs` kept as a
parameter (the class is built from `string.punctuation` and an external
`camel_tools` charset not part of this repository). -/
def pnxLine (puncs : List Char) (l : List Char) : List Char :=
  pyStrip (norm_digits (squeezeSp (pnxSub puncs (pyStrip l))))

def pnx_tokenize (puncs : List Char) (data : List (List Char)) : List (List Char) :=
  data.map (pnxLine puncs)

/-- Levenshtein distance with unit costs, as computed by
`editdistance.distance`. -/
def editdistance : List Char → List Char → Nat
  | [], t => t.length
  | s, [] => s.length
  | a :: s, b :: t =>
    min (editdistance s t + (if a = b then 0 else 1))
      (min (editdistance s (b :: t) + 1) (editdistance (a :: s) t + 1))
  termination_by s t => s.length + t.length

/-- `postprocess(src_sents, preds_sents, verbose, gamma)`: `none` models the
failing length `assert`. -/
def postprocess (puncs : List Char) (gamma : Nat)
    (src_sents preds_sents : List (List Char)) : Option (List (List Char)) :=
  let preds := pnx_tokenize puncs preds_sents
  if src_sents.length = preds.length then
    some ((src_sents.zip preds).map fun p =>
      if editdistance p.1 p.2 ≥ gamma then p.1 else p.2)
  else none

/-! ## C5: the second branch of `get_edits` -/

/-- The keep/delete tag the second branch of `get_edits` produces. -/
def keepDeleteTag (src tgt : List Char) : List Char :=
  src.map fun c => if ¬(c ∈ tgt) then 'D' else 'K'

/-- C5 (counterexample).  The claim's trigger is "all target characters occur
in the source" (set containment): at `src = "ab"`, `tgt = "ba"` that holds and
the target is non-empty, yet `get_edits` does not return the keep/delete tag
(the guard in the code is Python's substring test `tgt_chars in src_chars`,
which fails here, so the general fallback produces replacements instead). -/
theorem get_edits_substring_branch_cex :
    (∀ c ∈ ("ba".toList), c ∈ ("ab".toList)) ∧ ("ba".toList ≠ []) ∧
      get_edits ("ab".toList) ("ba".toList) ≠
        some (keepDeleteTag ("ab".toList) ("ba".toList)) ∧
      get_edits ("ab".toList) ("ba".toList) = some ("R_[b]R_[a]".toList) := by
  decide

/-- C5 (amended): whenever `get_edits` is called with a non-empty target that
occurs in the source as a contiguous substring (Python's `in` on strings),
it returns the tag that keeps exactly the source characters occurring in the
target and deletes all the others. -/
theorem get_edits_substring_branch (src tgt : List Char)
    (h1 : tgt ≠ []) (h2 : strIn tgt src = true) :
    get_edits src tgt = some (keepDeleteTag src tgt) := by
  unfold get_edits keepDeleteTag
  rw [if_neg h1, if_pos h2]

/-- C5 (witness): the amended theorem at `src = "abc"`, `tgt = "bc"`. -/
theorem get_edits_substring_branch_witness :
    get_edits ("abc".toList) ("bc".toList) =
      some (keepDeleteTag ("abc".toList) ("bc".toList)) :=
  get_edits_substring_branch _ _ (by decide) (by decide)

/-! ## C6: the `K*` run rule of the applier -/

/-- Helper: a filter and the filter by the negated predicate partition a
list's length. -/
theorem length_filter_add_length_filter_not {α : Type} (l : List α) (p : α → Bool) :
    (l.filter p).length + (l.filter fun e => !(p e)).length = l.length := by
  induction l with
  | nil => simp
  | cons a l ih =>
    by_cases h : p a <;> simp [List.filter_cons, h, ← ih] <;> omega

/-- C6: when `SubwordEdit.apply` meets a `K*` op, the copied run is all
remaining piece characters if every op after the `K*` is an insertion or an
append, and otherwise all remaining characters except the last `n`, where `n`
is the number of remaining ops that are not insertions/appends; the read
cursor advances by exactly the run's length. -/
theorem keep_star_run_rule (s : List Char) (idx i : Nat) (rest : List (List Char)) :
    (SubwordEdit.applyKeepStar s rest =
      if (rest.filter fun e => !(decide (e.head? = some 'I' ∨ e.head? = some 'A'))).length = 0
      then s
      else s.take (s.length -
        (rest.filter fun e => !(decide (e.head? = some 'I' ∨ e.head? = some 'A'))).length)) ∧
    SubwordEdit.applyCE s idx i (['K', '*'] :: rest) =
      (SubwordEdit.applyCE s (idx + (SubwordEdit.applyKeepStar (s.drop idx) rest).length)
          (i + 1) rest).map (SubwordEdit.applyKeepStar (s.drop idx) rest ++ ·) := by
  constructor
  · have hpart := length_filter_add_length_filter_not rest
      (fun e => decide (e.head? = some 'I' ∨ e.head? = some 'A'))
    unfold SubwordEdit.applyKeepStar
    by_cases h : (rest.filter fun e =>
        !(decide (e.head? = some 'I' ∨ e.head? = some 'A'))).length = 0
    · rw [if_pos h, if_pos]
      omega
    · rw [if_neg h, if_neg]
      · congr 1
        omega
      · omega
  · rfl

/-! ## C9: bare `M` ops are no-ops for the applier and the validator -/

/-- C9: a bare `M` op in a piece tag emits no output characters and does not
advance the read cursor of `SubwordEdit.apply` (only the op position `i`
moves on), and the filtered op list that `SubwordEdit.is_applicable` counts
source-character consumption over drops every op starting with `M`. -/
theorem merge_op_noop (s : List Char) (idx i : Nat) (rest ops : List (List Char)) :
    SubwordEdit.applyCE s idx i (['M'] :: rest) = SubwordEdit.applyCE s idx (i + 1) rest ∧
    SubwordEdit.opsWoAMI (['M'] :: ops) = SubwordEdit.opsWoAMI ops := by
  constructor
  · rfl
  · simp [SubwordEdit.opsWoAMI, List.filter_cons]

/-! ## C4: reachability of the fatal assert in the fallback of `get_edits` -/

/-- C4 (counterexample).  At `src = "a  "`, `tgt = "bc"` the general fallback
is reached (non-empty target, not a substring of the source, branch 3's guard
false, source strictly longer than target), the source scan completes with
the target cursor short of the end, and the fatal `assert j == len(tgt_chars)`
fires: `get_edits` has no normal return. -/
theorem get_edits_fallback_assert_cex :
    (("bc".toList) ≠ [] ∧ strIn ("bc".toList) ("a  ".toList) = false ∧
      ¬((pyStrip ("a  ".toList)).length = 1 ∧ ("bc".toList).length = 1) ∧
      ("a  ".toList).length > ("bc".toList).length) ∧
    get_edits ("a  ".toList) ("bc".toList) = none := by
  decide

/-- The scanning loop leaves no unconsumed target exactly when the source has
at least as many non-space characters as the target has characters. -/
theorem geLoop_target_exhausted : ∀ (src tgt : List Char),
    (geLoop src tgt).2.2 = [] ↔
      tgt.length ≤ (src.filter fun c => ¬(c = ' ')).length := by
  intro src
  induction src with
  | nil =>
    intro tgt
    cases tgt with
    | nil => simp [geLoop]
    | cons t ts => simp [geLoop]
  | cons c src ih =>
    intro tgt
    cases tgt with
    | nil => simp [geLoop]
    | cons t ts =>
      by_cases hc : c = ' '
      · have h1 := ih (t :: ts)
        simp only [geLoop, hc, List.filter_cons]
        simp only [List.length_cons] at h1 ⊢
        simpa using h1
      · have h1 := ih ts
        simp only [geLoop, if_pos hc, List.filter_cons]
        simp [hc, h1]

/-- C4 (amended): under the fallback's precondition the fatal branch is
avoided if and only if the source contains at least as many non-space
characters as the target has characters (the counterexample shows the code's
internal invariant is not unconditional: with more spaces than that, the
target cursor stops short and the assert fires). -/
theorem get_edits_fallback_assert (src tgt : List Char) (h1 : tgt ≠ [])
    (h2 : strIn tgt src = false)
    (h3 : ¬((pyStrip src).length = 1 ∧ tgt.length = 1))
    (h4 : src.length > tgt.length) :
    get_edits src tgt ≠ none ↔
      tgt.length ≤ (src.filter fun c => ¬(c = ' ')).length := by
  unfold get_edits
  rw [if_neg h1, if_neg (by simp [h2]), if_neg h3]
  by_cases h : (geLoop src tgt).2.2 = []
  · simp only [h, if_pos rfl]
    constructor
    · intro _
      exact (geLoop_target_exhausted src tgt).mp h
    · intro _
      simp
  · simp only [if_neg h]
    constructor
    · intro hfalse
      exact absurd rfl hfalse
    · intro hle
      exact absurd ((geLoop_target_exhausted src tgt).mpr hle) h

/-- C4 (witness): the amended theorem at `src = "abc"`, `tgt = "xy"`. -/
theorem get_edits_fallback_assert_witness :
    get_edits ("abc".toList) ("xy".toList) ≠ none :=
  (get_edits_fallback_assert ("abc".toList) ("xy".toList)
    (by decide) (by decide) (by decide) (by decide)).mpr (by decide)

/-! ## C8: the edit-distance gate of `postprocess` -/

/-- C8 (counterexample).  With threshold `gamma = 1`, source `"a"` and
prediction `"b"` the edit distance equals the threshold — it does not exceed
it — yet `postprocess` rejects the prediction and outputs the source: the
code gates with `dist >= gamma`, not with strict excess. -/
theorem postprocess_gating_cex :
    postprocess [] 1 [("a".toList)] [("b".toList)] = some [("a".toList)] ∧
      ¬(editdistance ("a".toList) (pnxLine [] ("b".toList)) > 1) := by
  constructor
  · simp [postprocess, pnx_tokenize, pnxLine, pnxSub, squeezeSp, squeezeGo,
      norm_digits, isReDigit, pyStrip, isPySpace, editdistance]
  · simp [pnxLine, pnxSub, squeezeSp, squeezeGo, norm_digits, isReDigit,
      pyStrip, isPySpace, editdistance]

/-- Helper: mapping a function over a zip against a mapped list is a
`zipWith`. -/
theorem map_zip_map_right {α β γ : Type} (g : β → β) (F : α × β → γ) :
    ∀ (l : List α) (l' : List β),
      ((l.zip (l'.map g)).map F) = List.zipWith (fun s p => F (s, g p)) l l' := by
  intro l
  induction l with
  | nil => intro l'; simp
  | cons s ss ih =>
    intro l'
    cases l' with
    | nil => simp
    | cons p ps => simp [ih]

/-- C8 (amended): for aligned source/prediction sentence lists, `postprocess`
outputs, pair by pair, the source sentence exactly when the edit distance
between the source and the punctuation-tokenized prediction is at least
(`>=`, not strictly greater than) the threshold `gamma`, and the
punctuation-tokenized prediction otherwise. -/
theorem postprocess_gating (puncs : List Char) (gamma : Nat)
    (srcs preds : List (List Char)) (h : srcs.length = preds.length) :
    postprocess puncs gamma srcs preds =
      some (List.zipWith (fun s p =>
        if editdistance s (pnxLine puncs p) ≥ gamma then s
        else pnxLine puncs p) srcs preds) := by
  unfold postprocess pnx_tokenize
  rw [if_pos (by simpa using h)]
  rw [map_zip_map_right (pnxLine puncs)
    (fun p => if editdistance p.1 p.2 ≥ gamma then p.1 else p.2) srcs preds]

/-- C8 (witness): the amended theorem at `gamma = 2`, sources `["a"]`,
predictions `["b"]` (distance 1 below the threshold, prediction kept). -/
theorem postprocess_gating_witness :
    postprocess [] 2 [("a".toList)] [("b".toList)] =
      some (List.zipWith (fun s p =>
        if editdistance s (pnxLine [] p) ≥ 2 then s
        else pnxLine [] p) [("a".toList)] [("b".toList)]) :=
  postprocess_gating [] 2 [("a".toList)] [("b".toList)] (by decide)

/-! ## C2: the projector's per-piece count and concatenation post-condition -/

/-- C2 (counterexample).  For the word tag `K` with two pieces,
`SubwordEdits.create` succeeds through its `K` shortcut and yields one tag per
piece, but the concatenation of the produced per-piece tags is `KK`, which
does not reproduce the original word tag `K` (no strippable `S` is
involved): the concatenation post-condition is only checked — and only
holds — on the general projection path, for the tags as projected before
compression. -/
theorem subword_edits_create_projection_cex :
    SubwordEdits.create [("a".toList), ("b".toList)] [("a".toList), ("b".toList)] ['K'] =
      some ([("a".toList), ("b".toList)],
        [⟨"a".toList, "a".toList, ['K']⟩, ⟨"b".toList, "b".toList, ['K']⟩]) ∧
      (['K'] ++ ['K'] : List Char) ≠ stripS ['K'] := by
  decide

/-- C2 (amended): (1) whenever `SubwordEdits.create` returns normally and is
not in the documented zero-piece pure-insertion special case, it yields
exactly one per-piece tag per input piece; (2) on the general projection path
(`_project_edit`), the per-piece tags as projected — before compression —
number exactly one per piece and concatenate, after removing every `S` not
preceded by `[` and not followed by `]`, to the original word tag; the
returned records carry the compressed forms of those projected tags. -/
theorem subword_edits_create_projection :
    (∀ (subwords raw : List (List Char)) (tag : List Char)
       (sws : List (List Char)) (edits : List SubwordEditRec),
       SubwordEdits.create subwords raw tag = some (sws, edits) →
       ¬(subwords = [] ∧ tag.head? = some 'I') →
       edits.length = subwords.length) ∧
    (∀ (subwords raw : List (List Char)) (tag : List Char)
       (swes : List SubwordEditRec),
       SubwordEdits.projectEdit subwords raw tag = some swes →
       ∃ pre : List (List Char),
         pre.length = subwords.length ∧
         pre.flatten = stripS tag ∧
         swes = ((subwords.zip raw).zip pre).map fun p =>
           ⟨p.1.1, p.1.2, compress_edit p.2⟩) := by
  have hproj : ∀ (subwords raw : List (List Char)) (tag : List Char)
      (swes : List SubwordEditRec),
      SubwordEdits.projectEdit subwords raw tag = some swes →
      ∃ pre : List (List Char),
        pre.length = subwords.length ∧
        pre.flatten = stripS tag ∧
        swes = ((subwords.zip raw).zip pre).map fun p =>
          ⟨p.1.1, p.1.2, compress_edit p.2⟩ := by
    intro subwords raw tag swes h
    unfold SubwordEdits.projectEdit at h
    simp only [] at h
    cases hw : SubwordEdits.projWords tag subwords 0 []
        ((findOpsP tag).filter fun op => op.take 3 = ['I', '_', '['])
        ((findOpsP tag).filter fun op => op.take 3 = ['R', '_', '[']) with
    | none => rw [hw] at h; exact absurd h (by simp)
    | some r =>
      obtain ⟨idx, acc, ins, rep⟩ := r
      rw [hw] at h
      simp only [] at h
      cases hacc : (if idx < tag.length then modLast acc (tag.drop idx) else some acc) with
      | none => rw [hacc] at h; exact absurd h (by simp)
      | some acc' =>
        rw [hacc] at h
        simp only at h
        split at h
        case isTrue hflat =>
          split at h
          case isTrue hlen =>
            refine ⟨acc', ?_, hflat, ?_⟩
            · exact hlen.1
            · rw [Option.some_inj] at h
              exact h.symm
          case isFalse => exact absurd h (by simp)
        case isFalse => exact absurd h (by simp)
  constructor
  · intro subwords raw tag sws edits h hnz
    unfold SubwordEdits.create at h
    by_cases h1 : subwords.length = raw.length
    case neg => rw [if_neg h1] at h; exact absurd h (by simp)
    rw [if_pos h1, if_neg hnz] at h
    by_cases h2 : tag = ['K']
    · rw [if_pos h2] at h
      rw [Option.some_inj] at h
      have he : edits = (subwords.zip raw).map fun p => ⟨p.1, p.2, ['K']⟩ := by
        have := congrArg Prod.snd h; simpa using this.symm
      rw [he]
      simp [List.length_zip, h1]
    · rw [if_neg h2] at h
      cases hp : SubwordEdits.projectEdit subwords raw tag with
      | none => rw [hp] at h; exact absurd h (by simp)
      | some swes =>
        rw [hp] at h
        simp only [] at h
        split at h
        · rw [Option.some_inj] at h
          have he : edits = swes := by
            have := congrArg Prod.snd h; simpa using this.symm
          obtain ⟨pre, hl, _, hs⟩ := hproj subwords raw tag swes hp
          rw [he, hs]
          simp [List.length_zip, h1, hl]
        · exact absurd h (by simp)
  · exact hproj

/-- C2 (witness): the amended theorem applied at pieces `["ab"]`, tag `KK`
(general projection path; one tag for the one piece). -/
theorem subword_edits_create_projection_witness :
    ([⟨"ab".toList, "ab".toList, "KK".toList⟩] : List SubwordEditRec).length =
      [("ab".toList)].length :=
  subword_edits_create_projection.1 [("ab".toList)] [("ab".toList)] ("KK".toList)
    [("ab".toList)] [⟨"ab".toList, "ab".toList, "KK".toList⟩]
    (by simp [SubwordEdits.create, SubwordEdits.projectEdit, SubwordEdits.projWords,
      SubwordEdits.projStep, findOpsP, findOpsC, takeBracket, findClose, modLast,
      stripS, stripSFrom, compress_edit, compress_insertions, ciGo, stripBr,
      replaceHH])
    (by simp)

/-! ## Parsing infrastructure for encoder-produced tags

The word-level encoder only ever emits the single-character ops `K`, `D`,
`M`, `S` and the bracketed ops `I_[...]`, `R_[...]` whose payloads come from
target-group text.  When the payloads are free of `]` and of newlines, the
applier's tokenizer recovers exactly the emitted op sequence. -/

/-- The op shapes the word-level encoder emits. -/
inductive EncOp : List Char → Prop
  | K : EncOp ['K']
  | D : EncOp ['D']
  | M : EncOp ['M']
  | S : EncOp ['S']
  | I (p : List Char) (h1 : ']' ∉ p) (h2 : '\n' ∉ p) : EncOp (mkI p)
  | R (p : List Char) (h1 : ']' ∉ p) (h2 : '\n' ∉ p) : EncOp (mkR p)

theorem EncOp.ne_nil {op : List Char} (h : EncOp op) : op ≠ [] := by
  cases h <;> simp [mkI, mkR]

theorem EncOp.head_mem {op : List Char} (h : EncOp op) :
    op.head? = some 'K' ∨ op.head? = some 'D' ∨ op.head? = some 'M' ∨
    op.head? = some 'S' ∨ op.head? = some 'I' ∨ op.head? = some 'R' := by
  cases h <;> simp [mkI, mkR]

theorem encOps_flatten_head {L : List (List Char)} (h : ∀ op ∈ L, EncOp op)
    {c : Char} (hc : L.flatten.head? = some c) :
    c = 'K' ∨ c = 'D' ∨ c = 'M' ∨ c = 'S' ∨ c = 'I' ∨ c = 'R' := by
  induction L with
  | nil => simp at hc
  | cons op L ih =>
    have hop := h op (by simp)
    have hne := hop.ne_nil
    rw [List.flatten_cons, List.head?_append_of_ne_nil _ hne] at hc
    have := hop.head_mem
    rw [hc] at this
    simpa using this

/-- `findClose` on a clean payload followed by its closing bracket. -/
theorem findClose_clean (p : List Char) (s : List Char)
    (h1 : ']' ∉ p) (h2 : '\n' ∉ p) :
    findClose (p ++ ']' :: s) = some (p, ']' :: s) := by
  induction p with
  | nil => simp [findClose]
  | cons c p ih =>
    have hc1 : c ≠ ']' := by intro h; exact h1 (h ▸ List.mem_cons_self c p)
    have hc2 : c ≠ '\n' := by intro h; exact h2 (h ▸ List.mem_cons_self c p)
    simp only [List.cons_append, findClose, if_neg hc1, if_neg hc2, List.append_eq]
    rw [ih (fun hm => h1 (List.mem_cons_of_mem _ hm))
      (fun hm => h2 (List.mem_cons_of_mem _ hm))]
    rfl

/-- `takeBracket` recovers a bracketed op exactly when its payload is clean
and it is not followed by another close bracket. -/
theorem takeBracket_clean (x : Char) (p s : List Char)
    (h1 : ']' ∉ p) (h2 : '\n' ∉ p) (h3 : s.head? ≠ some ']') :
    takeBracket x ('_' :: '[' :: (p ++ ']' :: s)) =
      some (x :: '_' :: '[' :: (p ++ [']']), s) := by
  have htw : (']' :: s).takeWhile (· = ']') = [']'] := by
    cases s with
    | nil => simp [List.takeWhile]
    | cons d s' =>
      have hd : d ≠ ']' := by
        intro h
        exact h3 (by simp [h])
      simp [List.takeWhile, hd]
  have hdw : (']' :: s).dropWhile (· = ']') = s := by
    cases s with
    | nil => simp [List.dropWhile]
    | cons d s' =>
      have hd : d ≠ ']' := by
        intro h
        exact h3 (by simp [h])
      simp [List.dropWhile, hd]
  simp only [takeBracket, if_pos (And.intro rfl rfl), findClose_clean p s h1 h2,
    htw, hdw]
  simp

/-- The applier's tokenizer recovers an encoder-made op list exactly. -/
theorem findOpsA_encOps : ∀ (L : List (List Char)), (∀ op ∈ L, EncOp op) →
    findOpsA L.flatten = L := by
  intro L
  induction L with
  | nil => intro _; simp [findOpsA]
  | cons op L ih =>
    intro h
    have hop := h op (by simp)
    have hL : ∀ o ∈ L, EncOp o := fun o ho => h o (by simp [ho])
    have hrec := ih hL
    have hhead : L.flatten.head? ≠ some '*' ∧ L.flatten.head? ≠ some ']' := by
      constructor <;>
      · intro hc
        rcases encOps_flatten_head hL hc with h | h | h | h | h | h <;> simp_all
    rw [List.flatten_cons]
    cases hop with
    | K =>
      show findOpsA ('K' :: L.flatten) = ['K'] :: L
      rw [findOpsA]
      rw [if_neg (by simp), if_neg ?_, if_neg (by simp)]
      · rw [hrec]
      · intro hcon
        exact hhead.1 hcon.2
    | D =>
      show findOpsA ('D' :: L.flatten) = ['D'] :: L
      rw [findOpsA]
      rw [if_neg (by simp), if_neg ?_, if_neg (by simp)]
      · rw [hrec]
      · intro hcon
        exact hhead.1 hcon.2
    | M =>
      show findOpsA ('M' :: L.flatten) = ['M'] :: L
      rw [findOpsA]
      rw [if_neg (by simp), if_neg (by simp), if_neg (by simp)]
      rw [hrec]
    | S =>
      show findOpsA ('S' :: L.flatten) = ['S'] :: L
      rw [findOpsA]
      rw [if_neg (by simp), if_neg (by simp), if_neg (by simp)]
      rw [hrec]
    | I p h1 h2 =>
      show findOpsA ('I' :: ('_' :: '[' :: (p ++ [']']) ++ L.flatten)) = mkI p :: L
      rw [findOpsA]
      rw [if_pos (by simp)]
      have harg : ('_' :: '[' :: (p ++ [']']) ++ L.flatten) =
          '_' :: '[' :: (p ++ ']' :: L.flatten) := by simp
      rw [harg, takeBracket_clean 'I' p L.flatten h1 h2 hhead.2]
      simp only [mkI]
      rw [hrec]
      simp
    | R p h1 h2 =>
      show findOpsA ('R' :: ('_' :: '[' :: (p ++ [']']) ++ L.flatten)) = mkR p :: L
      rw [findOpsA]
      rw [if_pos (by simp)]
      have harg : ('_' :: '[' :: (p ++ [']']) ++ L.flatten) =
          '_' :: '[' :: (p ++ ']' :: L.flatten) := by simp
      rw [harg, takeBracket_clean 'R' p L.flatten h1 h2 hhead.2]
      simp only [mkR]
      rw [hrec]
      simp

/-- Payload extraction undoes op construction for clean payloads. -/
theorem stripBr_cons (x a b : Char) (tail : List Char) :
    stripBr (x :: a :: b :: tail) =
      if a = '_' ∧ b = '[' then
        match findClose tail with
        | some (payload, suf) => payload ++ suf.drop 1
        | none => x :: a :: b :: tail
      else x :: a :: b :: tail := rfl

theorem stripBr_mkI (p : List Char) (h1 : ']' ∉ p) (h2 : '\n' ∉ p) :
    stripBr (mkI p) = p := by
  have hfc : findClose (p ++ [']']) = some (p, [']']) := findClose_clean p [] h1 h2
  rw [show mkI p = 'I' :: '_' :: '[' :: (p ++ [']']) from rfl, stripBr_cons,
    if_pos (And.intro rfl rfl), hfc]
  simp

theorem stripBr_mkR (p : List Char) (h1 : ']' ∉ p) (h2 : '\n' ∉ p) :
    stripBr (mkR p) = p := by
  have hfc : findClose (p ++ [']']) = some (p, [']']) := findClose_clean p [] h1 h2
  rw [show mkR p = 'R' :: '_' :: '[' :: (p ++ [']']) from rfl, stripBr_cons,
    if_pos (And.intro rfl rfl), hfc]
  simp

/-! ## C3: the consumption invariant of encoder tags -/

/-- Source characters one op token accounts for, per the claim's counting:
`K`/`D`/`R` (and the encoder's space markers `M` and `S`) consume one source
character; insertion and append ops consume none. -/
def opConsume (op : List Char) : Nat :=
  if op = ['K'] ∨ op = ['D'] ∨ op = ['M'] ∨ op = ['S'] then 1
  else if op.head? = some 'R' then 1 else 0

/-- Total source length accounted for by a tag, over the applier's
tokenization of it. -/
def tagConsume (t : List Char) : Nat := ((findOpsA t).map opConsume).sum

/-- `t` is a concatenation of encoder ops accounting for exactly `n` source
characters. -/
def EncodesLen (t : List Char) (n : Nat) : Prop :=
  ∃ L : List (List Char),
    t = L.flatten ∧ (∀ op ∈ L, EncOp op) ∧ (L.map opConsume).sum = n

theorem EncodesLen.nil : EncodesLen [] 0 :=
  ⟨[], by simp⟩

theorem EncodesLen.append {t1 t2 : List Char} {n1 n2 : Nat}
    (h1 : EncodesLen t1 n1) (h2 : EncodesLen t2 n2) :
    EncodesLen (t1 ++ t2) (n1 + n2) := by
  obtain ⟨L1, he1, ho1, hc1⟩ := h1
  obtain ⟨L2, he2, ho2, hc2⟩ := h2
  refine ⟨L1 ++ L2, ?_, ?_, ?_⟩
  · simp [he1, he2]
  · intro op hop
    rcases List.mem_append.mp hop with h | h
    · exact ho1 op h
    · exact ho2 op h
  · simp [hc1, hc2]

theorem EncodesLen.single {op : List Char} (h : EncOp op) :
    EncodesLen op (opConsume op) :=
  ⟨[op], by simp [h]⟩

theorem opConsume_K : opConsume ['K'] = 1 := by simp [opConsume]
theorem opConsume_D : opConsume ['D'] = 1 := by simp [opConsume]
theorem opConsume_M : opConsume ['M'] = 1 := by simp [opConsume]
theorem opConsume_S : opConsume ['S'] = 1 := by simp [opConsume]
theorem opConsume_mkR (p : List Char) : opConsume (mkR p) = 1 := by
  simp [opConsume, mkR]
theorem opConsume_mkI (p : List Char) : opConsume (mkI p) = 0 := by
  simp [opConsume, mkI]

theorem encodesLen_replicate (c : Char) (h : EncOp [c]) (hc : opConsume [c] = 1) :
    ∀ n, EncodesLen (List.replicate n c) n := by
  intro n
  induction n with
  | zero => simpa using EncodesLen.nil
  | succ n ih =>
    have : (List.replicate (n + 1) c : List Char) = [c] ++ List.replicate n c := by
      simp [List.replicate_succ]
    rw [this]
    have h2 := (EncodesLen.single h).append ih
    rw [hc, Nat.add_comm] at h2
    exact h2

/-- A per-character map to `D`/`M`-style single ops encodes the mapped
string's length. -/
theorem encodesLen_map_single (f : Char → Char)
    (hf : ∀ c, EncOp [f c] ∧ opConsume [f c] = 1) :
    ∀ (s : List Char), EncodesLen (s.map f) s.length := by
  intro s
  induction s with
  | nil => simpa using EncodesLen.nil
  | cons c s ih =>
    have : ((c :: s).map f : List Char) = [f c] ++ s.map f := by simp
    rw [this]
    have h := (EncodesLen.single (hf c).1).append ih
    rw [(hf c).2, Nat.add_comm] at h
    simpa using h

/-- A map to single-op characters encodes one consumed character each. -/
theorem encodesLen_map_one {α : Type} (f : α → Char) (l : List α)
    (hf : ∀ x ∈ l, EncOp [f x] ∧ opConsume [f x] = 1) :
    EncodesLen (l.map f) l.length := by
  induction l with
  | nil => simpa using EncodesLen.nil
  | cons x l ih =>
    have hx := hf x (by simp)
    have : ((x :: l).map f : List Char) = [f x] ++ l.map f := by simp
    rw [this]
    have h := (EncodesLen.single hx.1).append
      (ih fun y hy => hf y (by simp [hy]))
    rw [hx.2, Nat.add_comm] at h
    simpa using h

/-- A per-element map to op chunks of fixed consumption `k`. -/
theorem encodesLen_map_flatten {α : Type} (f : α → List Char) (k : Nat)
    (l : List α) (hf : ∀ x ∈ l, EncodesLen (f x) k) :
    EncodesLen (l.map f).flatten (l.length * k) := by
  induction l with
  | nil => simpa using EncodesLen.nil
  | cons x l ih =>
    have : ((x :: l).map f).flatten = f x ++ (l.map f).flatten := by simp
    rw [this]
    have h := (hf x (by simp)).append (ih fun y hy => hf y (by simp [hy]))
    have harith : k + l.length * k = (x :: l).length * k := by
      simp [List.length_cons, Nat.add_mul, Nat.add_comm]
    rwa [harith] at h

theorem cleanChars_not_mem {t : List Char}
    (ht : ∀ c ∈ t, c ≠ ']' ∧ c ≠ '\n') : ']' ∉ t ∧ '\n' ∉ t := by
  constructor
  · intro hm; exact (ht ']' hm).1 rfl
  · intro hm; exact (ht '\n' hm).2 rfl

/-- The scanning loop of the fallback of `get_edits` emits encoder ops that
account for exactly the scanned part of the source. -/
theorem geLoop_encodes : ∀ (src tgt : List Char),
    (∀ c ∈ tgt, c ≠ ']' ∧ c ≠ '\n') →
    ∃ n, EncodesLen (geLoop src tgt).1 n ∧
      n + (geLoop src tgt).2.1.length = src.length := by
  intro src
  induction src with
  | nil =>
    intro tgt ht
    cases tgt with
    | nil => exact ⟨0, by simpa [geLoop] using EncodesLen.nil, by simp [geLoop]⟩
    | cons t ts => exact ⟨0, by simpa [geLoop] using EncodesLen.nil, by simp [geLoop]⟩
  | cons c src ih =>
    intro tgt ht
    cases tgt with
    | nil =>
      exact ⟨0, by simpa [geLoop] using EncodesLen.nil, by simp [geLoop]⟩
    | cons t ts =>
      by_cases hc : c = ' '
      · obtain ⟨n, he, hn⟩ := ih (t :: ts) ht
        refine ⟨n + 1, ?_, ?_⟩
        · have h := (EncodesLen.single EncOp.M).append he
          rw [opConsume_M] at h
          simp only [geLoop, hc]
          rw [if_neg (by simp)]
          simpa [Nat.add_comm] using h
        · simp only [geLoop, hc]
          rw [if_neg (by simp)]
          simp only [List.length_cons]
          omega
      · have hts : ∀ x ∈ ts, x ≠ ']' ∧ x ≠ '\n' := fun x hx => ht x (by simp [hx])
        obtain ⟨n, he, hn⟩ := ih ts hts
        have htc := cleanChars_not_mem (t := [t])
          (by intro x hx; simp at hx; rw [hx]; exact ht t (by simp))
        refine ⟨n + 1, ?_, ?_⟩
        · have h := (EncodesLen.single (EncOp.R [t] htc.1 htc.2)).append he
          rw [opConsume_mkR] at h
          simp only [geLoop]
          rw [if_pos hc]
          simpa [Nat.add_comm] using h
        · simp only [geLoop]
          rw [if_pos hc]
          simp only [List.length_cons]
          omega

/-- Whatever branch `get_edits` returns through, the tag accounts for exactly
the source's length. -/
theorem get_edits_encodes (src tgt : List Char)
    (ht : ∀ c ∈ tgt, c ≠ ']' ∧ c ≠ '\n') (ge : List Char)
    (h : get_edits src tgt = some ge) : EncodesLen ge src.length := by
  unfold get_edits at h
  by_cases h1 : tgt = []
  · rw [if_pos h1, Option.some_inj] at h
    rw [← h]
    exact encodesLen_replicate 'D' EncOp.D opConsume_D src.length
  rw [if_neg h1] at h
  by_cases h2 : strIn tgt src = true
  · rw [if_pos h2, Option.some_inj] at h
    rw [← h]
    refine encodesLen_map_one _ _ fun c _ => ?_
    by_cases hm : c ∈ tgt <;>
      simp [hm, EncOp.K, EncOp.D, opConsume_K, opConsume_D]
  rw [if_neg h2] at h
  by_cases h3 : (pyStrip src).length = 1 ∧ tgt.length = 1
  · rw [if_pos h3, Option.some_inj] at h
    have hone : ∃ t0, tgt = [t0] := by
      cases tgt with
      | nil => simp at h3
      | cons a l =>
        cases l with
        | nil => exact ⟨a, rfl⟩
        | cons b l' => simp at h3
    obtain ⟨t0, ht0⟩ := hone
    subst ht0
    have ht0m : t0 ∈ [t0] := by simp
    have hcl1 : ']' ∉ [t0] := by
      intro hm; simp at hm; exact (ht t0 ht0m).1 hm.symm
    have hcl2 : '\n' ∉ [t0] := by
      intro hm; simp at hm; exact (ht t0 ht0m).2 hm.symm
    rw [← h]
    have := encodesLen_map_flatten
      (fun c => if c = ' ' then ['M'] else mkR [List.headI [t0]]) 1 src
      (fun c _ => by
        show EncodesLen (if c = ' ' then ['M'] else mkR [List.headI [t0]]) 1
        by_cases hc : c = ' '
        · simpa [hc, opConsume_M] using EncodesLen.single EncOp.M
        · rw [if_neg hc]
          have hh : List.headI [t0] = t0 := rfl
          rw [hh]
          simpa [opConsume_mkR] using
            EncodesLen.single (EncOp.R [t0] hcl1 hcl2))
    simpa using this
  rw [if_neg h3] at h
  by_cases h4 : (geLoop src tgt).2.2 = []
  · rw [if_pos h4, Option.some_inj] at h
    obtain ⟨n, he, hn⟩ := geLoop_encodes src tgt ht
    have hd := encodesLen_replicate 'D' EncOp.D opConsume_D
      (geLoop src tgt).2.1.length
    have := he.append hd
    rw [hn] at this
    rw [← h]
    exact this
  · rw [if_neg h4] at h
    exact absurd h (by simp)

/-- The replacement helper accounts for exactly the source group's length. -/
theorem replacments_encodes (s t : List Char)
    (ht : ∀ c ∈ t, c ≠ ']' ∧ c ≠ '\n')
    (hs : s ≠ []) (hle : s.length ≤ t.length) :
    EncodesLen (Edit.replacments s t) s.length := by
  unfold Edit.replacments
  by_cases h1 : t.length = 1
  · rw [if_pos h1]
    have hsl : s.length = 1 := by
      have : 1 ≤ s.length := by
        cases s with
        | nil => exact absurd rfl hs
        | cons a l => simp
      omega
    have hcl := cleanChars_not_mem ht
    rw [hsl]
    simpa [opConsume_mkR] using EncodesLen.single (EncOp.R t hcl.1 hcl.2)
  rw [if_neg h1]
  by_cases h2 : s.length = t.length
  · rw [if_pos h2]
    clear h1 hle hs
    induction s generalizing t with
    | nil => simpa using EncodesLen.nil
    | cons c s ih =>
      cases t with
      | nil => simp at h2
      | cons d t =>
        have hd := cleanChars_not_mem (t := [d])
          (by intro x hx; simp at hx; rw [hx]; exact ht d (by simp))
        have hchunk : EncodesLen (if c = ' ' then 'M' :: mkI [d] else mkR [d]) 1 := by
          by_cases hc : c = ' '
          · rw [if_pos hc]
            have := (EncodesLen.single EncOp.M).append
              (EncodesLen.single (EncOp.I [d] hd.1 hd.2))
            rw [opConsume_M, opConsume_mkI] at this
            simpa using this
          · rw [if_neg hc]
            simpa [opConsume_mkR] using
              EncodesLen.single (EncOp.R [d] hd.1 hd.2)
        have hts : ∀ c ∈ t, c ≠ ']' ∧ c ≠ '\n' := fun x hx => ht x (by simp [hx])
        have ih2 := ih t hts (by simpa using h2)
        have := hchunk.append ih2
        simp only [List.zip_cons_cons, List.map_cons, List.flatten_cons]
        simpa [Nat.add_comm] using this
  · rw [if_neg h2]
    have htake := encodesLen_map_flatten (fun x => mkR [x]) 1 (t.take s.length)
      (fun x hx => by
        have hxa := cleanChars_not_mem (t := [x])
          (by intro y hy; simp at hy; rw [hy]; exact ht x (List.mem_of_mem_take hx))
        simpa [opConsume_mkR] using EncodesLen.single (EncOp.R [x] hxa.1 hxa.2))
    have hdrop := encodesLen_map_flatten (fun x => mkI [x]) 0 (t.drop s.length)
      (fun x hx => by
        have hxa := cleanChars_not_mem (t := [x])
          (by intro y hy; simp at hy; rw [hy]; exact ht x (List.mem_of_mem_drop hx))
        simpa [opConsume_mkI] using EncodesLen.single (EncOp.I [x] hxa.1 hxa.2))
    have := htake.append hdrop
    rw [List.length_take] at this
    have harith : min s.length t.length * 1 + (t.drop s.length).length * 0 =
        s.length := by
      have := Nat.min_eq_left hle
      omega
    rwa [harith] at this

/-- Every per-group edit accounts for exactly its source group's length. -/
theorem groupEdit_encodes (s t : List Char)
    (ht : ∀ c ∈ t, c ≠ ']' ∧ c ≠ '\n') (ge : List Char)
    (h : Edit.groupEdit s t = some ge) : EncodesLen ge s.length := by
  unfold Edit.groupEdit at h
  by_cases h1 : s = t
  · rw [if_pos h1, Option.some_inj] at h
    rw [← h]
    by_cases hsp : s = [' ']
    · rw [if_pos hsp, hsp]
      simpa [opConsume_S] using EncodesLen.single EncOp.S
    · rw [if_neg hsp]
      exact encodesLen_replicate 'K' EncOp.K opConsume_K s.length
  rw [if_neg h1] at h
  by_cases h2 : s = [' '] ∧ t = []
  · rw [if_pos h2, Option.some_inj] at h
    rw [← h, h2.1]
    simpa [opConsume_M] using EncodesLen.single EncOp.M
  rw [if_neg h2] at h
  by_cases h3 : s = [' '] ∧ t ≠ []
  · rw [if_pos h3, Option.some_inj] at h
    have hcl := cleanChars_not_mem ht
    rw [← h, h3.1]
    have := (EncodesLen.single EncOp.M).append
      (EncodesLen.single (EncOp.I t hcl.1 hcl.2))
    rw [opConsume_M, opConsume_mkI] at this
    simpa using this
  rw [if_neg h3] at h
  by_cases h4 : s ≠ [] ∧ t = []
  · rw [if_pos h4, Option.some_inj] at h
    rw [← h]
    refine encodesLen_map_one _ _ fun c _ => ?_
    by_cases hc : c = ' ' <;>
      simp [hc, EncOp.D, EncOp.M, opConsume_D, opConsume_M]
  rw [if_neg h4] at h
  by_cases h5 : s = [] ∧ t ≠ []
  · rw [if_pos h5, Option.some_inj] at h
    have hcl := cleanChars_not_mem ht
    rw [← h, h5.1]
    simpa [opConsume_mkI] using EncodesLen.single (EncOp.I t hcl.1 hcl.2)
  rw [if_neg h5] at h
  by_cases h6 : s.length > t.length
  · rw [if_pos h6] at h
    exact get_edits_encodes s t ht ge h
  · rw [if_neg h6, Option.some_inj] at h
    have hs : s ≠ [] := by
      intro hnil
      by_cases htn : t = []
      · exact h1 (by rw [hnil, htn])
      · exact h5 ⟨hnil, htn⟩
    rw [← h]
    exact replacments_encodes s t ht hs (by omega)

/-- The per-group loop of the detailed case accounts for the sum of the
source groups' lengths. -/
theorem detailedGo_encodes : ∀ (ps : List (List Char × List Char)),
    (∀ p ∈ ps, ∀ c ∈ p.2, c ≠ ']' ∧ c ≠ '\n') →
    ∀ d, Edit.detailedGo ps = some d →
    EncodesLen d ((ps.map fun p => p.1.length).sum) := by
  intro ps
  induction ps with
  | nil =>
    intro _ d h
    simp only [Edit.detailedGo, Option.some_inj] at h
    rw [← h]
    simpa using EncodesLen.nil
  | cons p ps ih =>
    intro hcl d h
    simp only [Edit.detailedGo] at h
    cases hg : Edit.groupEdit p.1 p.2 with
    | none => rw [hg] at h; exact absurd h (by simp)
    | some ge =>
      rw [hg] at h
      cases hr : Edit.detailedGo ps with
      | none => rw [hr] at h; exact absurd h (by simp)
      | some d' =>
        rw [hr] at h
        simp only [Option.map_some', Option.some_inj] at h
        have h1 := groupEdit_encodes p.1 p.2 (hcl p (by simp)) ge hg
        have h2 := ih (fun q hq => hcl q (by simp [hq])) d' hr
        have := h1.append h2
        rw [← h]
        simpa using this

/-- Lengths under `zip` with equal-length lists. -/
theorem zip_fst_length_sum (S T : List (List Char)) (h : S.length = T.length) :
    ((S.zip T).map fun p => p.1.length).sum = (S.map List.length).sum := by
  induction S generalizing T with
  | nil => simp
  | cons s S ih =>
    cases T with
    | nil => simp at h
    | cons t T =>
      simp only [List.zip_cons_cons, List.map_cons, List.sum_cons]
      rw [ih T (by simpa using h)]

theorem EncodesLen.tagConsume_eq {t : List Char} {n : Nat}
    (h : EncodesLen t n) : tagConsume t = n := by
  obtain ⟨L, he, ho, hc⟩ := h
  rw [tagConsume, he, findOpsA_encOps L ho, hc]

theorem flatten_length_of_singles (S : List (List Char))
    (h : ∀ g ∈ S, g.length = 1) : S.flatten.length = S.length := by
  induction S with
  | nil => simp
  | cons g S ih =>
    simp only [List.flatten_cons, List.length_append, List.length_cons]
    rw [h g (by simp), ih fun x hx => h x (by simp [hx])]
    omega

/-- The cursor loop of the validator advances once per op when every op is a
`K`, `D` or `R`. -/
theorem iaLoop_kdr : ∀ (ops : List (List Char)) (slen idx : Nat),
    (∀ op ∈ ops, op = ['K'] ∨ op = ['D'] ∨ op.head? = some 'R') →
    SubwordEdit.iaLoop slen idx ops = idx + ops.length := by
  intro ops
  induction ops with
  | nil => intro slen idx _; simp [SubwordEdit.iaLoop]
  | cons op ops ih =>
    intro slen idx h
    have hop := h op (by simp)
    have hcond : op.head? = some 'R' ∨ op = ['K'] ∨ op = ['D'] := by
      rcases hop with h | h | h
      · exact Or.inr (Or.inl h)
      · exact Or.inr (Or.inr h)
      · exact Or.inl h
    simp only [SubwordEdit.iaLoop, if_pos hcond]
    rw [ih slen (idx + 1) fun x hx => h x (by simp [hx])]
    simp [List.length_cons]
    omega

/-- C3 (amended, two parts).

Part 1: for equal-length aligned group pairs whose target groups contain
neither `]` nor newline, every tag produced by `Edit.create` through the
pure-insertion, merge (with single-character source groups) or detailed
cases — the whole-word shortcuts `K` and `D` excepted — accounts for exactly
the stored word's length, counting one consumed source character for each
`K`, `D`, `R` op and each space marker `M`/`S`, and zero for insertions
(`K*`, `D*` and appends never occur in created tags).  The target
cleanliness is substantive: a `]` in a target group ends up inside an
`I_[...]`/`R_[...]` payload, the tag's own tokenization then splits the op
early, and the ledger breaks (`create(['a',''],['a',']K'])` stores word `a`
of length 1 under tag `KI_[]K]`, which re-reads as ops `K, I_[], K, ]` and
counts 2).

Part 2: for a piece tag built solely of `K`/`D`/`R`/`I`/`A`/`M` ops (other
than the always-applicable `K` and `KA...` forms), `is_applicable` holds
exactly when the number of its `K`/`D`/`R` ops equals the piece's length
(continuation markers stripped) — the consumption ledger is precisely what
the applicability check verifies, with insert/append/merge ops consuming
nothing. -/
theorem consumption_invariant :
    (∀ (S T : List (List Char)) (w e : List Char),
      Edit.create S T = some (w, e) →
      S.length = T.length →
      (∀ g ∈ T, ∀ c ∈ g, c ≠ ']' ∧ c ≠ '\n') →
      S ≠ T →
      ¬(S ≠ [[]] ∧ T = [[]]) →
      (is_merge S T = true → ∀ g ∈ S, g.length = 1) →
      tagConsume e = w.length) ∧
    (∀ (e s : List Char),
      e ≠ ['K'] → e.take 2 ≠ ['K', 'A'] →
      (∀ op ∈ findOpsA e, op = ['K'] ∨ op = ['D'] ∨ op.head? = some 'R' ∨
        op.head? = some 'I' ∨ op.head? = some 'A' ∨ op.head? = some 'M') →
      (SubwordEdit.is_applicable e s = true ↔
        ((findOpsA e).filter fun op =>
          op = ['K'] ∨ op = ['D'] ∨ op.head? = some 'R').length =
          (replaceHH s).length)) := by
  constructor
  · intro S T w e h hlen hT hK hD hM
    unfold Edit.create at h
    rw [if_neg hK] at h
    by_cases h2 : S = [[]] ∧ T ≠ [[]]
    · rw [if_pos h2] at h
      rw [Option.some_inj] at h
      have hw : w = S.flatten := by
        have := congrArg Prod.fst h; simpa using this.symm
      have he : e = mkI T.flatten := by
        have := congrArg Prod.snd h; simpa using this.symm
      have hcln : ∀ c ∈ T.flatten, c ≠ ']' ∧ c ≠ '\n' := by
        intro c hc
        obtain ⟨g, hg, hcg⟩ := List.mem_flatten.mp hc
        exact hT g hg c hcg
      have hcl := cleanChars_not_mem hcln
      have henc : EncodesLen e 0 := by
        rw [he]
        simpa [opConsume_mkI] using
          EncodesLen.single (EncOp.I T.flatten hcl.1 hcl.2)
      rw [henc.tagConsume_eq, hw, h2.1]
      simp
    rw [if_neg h2, if_neg hD] at h
    by_cases h4 : is_merge S T = true
    · rw [if_pos h4] at h
      rw [Option.some_inj] at h
      have hw : w = S.flatten := by
        have := congrArg Prod.fst h; simpa using this.symm
      have he : e = S.map fun g => if g ≠ [' '] then 'K' else 'M' := by
        have := congrArg Prod.snd h; simpa using this.symm
      have henc : EncodesLen e S.length := by
        rw [he]
        refine encodesLen_map_one _ _ fun g _ => ?_
        by_cases hg : g ≠ [' '] <;>
          simp [hg, EncOp.K, EncOp.M, opConsume_K, opConsume_M]
      rw [henc.tagConsume_eq, hw, flatten_length_of_singles S (hM h4)]
    · rw [if_neg h4] at h
      unfold Edit.generate_detailed_edit at h
      cases hd : Edit.detailedGo (S.zip T) with
      | none => rw [hd] at h; exact absurd h (by simp)
      | some d =>
        rw [hd] at h
        simp only [Option.map_some', Option.some_inj] at h
        have hw : w = S.flatten := by
          have := congrArg Prod.fst h; simpa using this.symm
        have he : e = d := by
          have := congrArg Prod.snd h; simpa using this.symm
        have hcln : ∀ p ∈ S.zip T, ∀ c ∈ p.2, c ≠ ']' ∧ c ≠ '\n' := by
          intro p hp
          exact hT p.2 (List.of_mem_zip hp).2
        have henc := detailedGo_encodes (S.zip T) hcln d hd
        rw [he, henc.tagConsume_eq, hw]
        rw [zip_fst_length_sum S T hlen]
        simp [List.length_flatten]
  · intro e s h1 h2 h3
    have howa : SubwordEdit.opsWoAMI (findOpsA e) =
        (findOpsA e).filter fun op =>
          op = ['K'] ∨ op = ['D'] ∨ op.head? = some 'R' := by
      unfold SubwordEdit.opsWoAMI
      refine List.filter_congr fun op hop => ?_
      have hne : op.head? = some 'I' ∨ op.head? = some 'A' ∨ op.head? = some 'M' →
          op ≠ ['K'] ∧ op ≠ ['D'] := by
        intro hh
        constructor <;> intro he <;> rw [he] at hh <;> simp at hh
      rcases h3 op hop with h | h | h | h | h | h
      · simp [h]
      · simp [h]
      · simp [h]
      · have := hne (Or.inl h)
        simp [h, this.1, this.2]
      · have := hne (Or.inr (Or.inl h))
        simp [h, this.1, this.2]
      · have := hne (Or.inr (Or.inr h))
        simp [h, this.1, this.2]
    have hkdr : ∀ op ∈ (findOpsA e).filter fun op =>
        op = ['K'] ∨ op = ['D'] ∨ op.head? = some 'R',
        op = ['K'] ∨ op = ['D'] ∨ op.head? = some 'R' := by
      intro op hop
      have := List.of_mem_filter hop
      simpa using this
    unfold SubwordEdit.is_applicable
    simp only []
    rw [if_neg (by
      intro hcon
      rcases hcon with h | h
      · exact h1 h
      · exact h2 h)]
    rw [howa]
    rw [iaLoop_kdr _ (replaceHH s).length 0 hkdr]
    by_cases h5 : (replaceHH s).length <
        ((findOpsA e).filter fun op =>
          op = ['K'] ∨ op = ['D'] ∨ op.head? = some 'R').length
    · rw [if_pos h5]
      constructor
      · intro hf; exact absurd hf (by simp)
      · intro heq; omega
    · rw [if_neg h5]
      simp only [Nat.zero_add, decide_eq_true_eq]
      constructor
      · intro hle; omega
      · intro heq; omega

/-- C3 (counterexample).  The whole-word keep shortcut violates the claim as
stated: `Edit.create(["ab"], ["ab"])` stores the two-character word `ab` with
tag `K`, whose ops account for only one source character. -/
theorem consumption_invariant_cex :
    Edit.create [("ab".toList)] [("ab".toList)] = some ("ab".toList, ['K']) ∧
      tagConsume ['K'] = 1 ∧ ("ab".toList).length = 2 := by
  refine ⟨by decide, ?_, by decide⟩
  simp [tagConsume, findOpsA, opConsume]

/-- C3 (witness): part 1 at the single-typo pair `("teh", "the")`, part 2 at
the tag `KDR_[x]` against the piece `abc`. -/
theorem consumption_invariant_witness :
    tagConsume ("R_[t]R_[h]R_[e]".toList) = ("teh".toList).length ∧
    (SubwordEdit.is_applicable ("KDR_[x]".toList) ("abc".toList) = true ↔
      ((findOpsA ("KDR_[x]".toList)).filter fun op =>
        op = ['K'] ∨ op = ['D'] ∨ op.head? = some 'R').length =
        (replaceHH ("abc".toList)).length) := by
  constructor
  · exact consumption_invariant.1 [("teh".toList)] [("the".toList)]
      ("teh".toList) ("R_[t]R_[h]R_[e]".toList)
      (by decide) (by decide) (by decide) (by decide) (by decide) (by decide)
  · exact consumption_invariant.2 ("KDR_[x]".toList) ("abc".toList)
      (by decide) (by decide)
      (by simp [findOpsA, takeBracket, findClose])

/-! ## C1: round-trip of encoder tags through the applier

`OpsSem L src tgt` says the op list `L` transforms the source text `src`
into `tgt` positionally: `K` copies a character, `D` drops one, `R_[p]`
replaces one by `p`, `I_[p]` emits `p`, consuming nothing. -/

inductive OpsSem : List (List Char) → List Char → List Char → Prop
  | nil : OpsSem [] [] []
  | keep (c : Char) {ops src tgt} : OpsSem ops src tgt →
      OpsSem (['K'] :: ops) (c :: src) (c :: tgt)
  | del (c : Char) {ops src tgt} : OpsSem ops src tgt →
      OpsSem (['D'] :: ops) (c :: src) tgt
  | ins (p : List Char) {ops src tgt} (h1 : ']' ∉ p) (h2 : '\n' ∉ p) :
      OpsSem ops src tgt → OpsSem (mkI p :: ops) src (p ++ tgt)
  | rep (c : Char) (p : List Char) {ops src tgt} (h1 : ']' ∉ p) (h2 : '\n' ∉ p) :
      OpsSem ops src tgt → OpsSem (mkR p :: ops) (c :: src) (p ++ tgt)

theorem OpsSem.encOps {L : List (List Char)} {src tgt : List Char}
    (h : OpsSem L src tgt) : ∀ op ∈ L, EncOp op := by
  induction h with
  | nil => simp
  | keep c _ ih =>
    intro op hop
    rcases List.mem_cons.mp hop with h | h
    · rw [h]; exact EncOp.K
    · exact ih op h
  | del c _ ih =>
    intro op hop
    rcases List.mem_cons.mp hop with h | h
    · rw [h]; exact EncOp.D
    · exact ih op h
  | ins p h1 h2 _ ih =>
    intro op hop
    rcases List.mem_cons.mp hop with h | h
    · rw [h]; exact EncOp.I p h1 h2
    · exact ih op h
  | rep c p h1 h2 _ ih =>
    intro op hop
    rcases List.mem_cons.mp hop with h | h
    · rw [h]; exact EncOp.R p h1 h2
    · exact ih op h

theorem OpsSem.append_sem {L1 L2 : List (List Char)} {s1 s2 t1 t2 : List Char}
    (h1 : OpsSem L1 s1 t1) (h2 : OpsSem L2 s2 t2) :
    OpsSem (L1 ++ L2) (s1 ++ s2) (t1 ++ t2) := by
  induction h1 with
  | nil => simpa using h2
  | keep c _ ih => exact OpsSem.keep c ih
  | del c _ ih => exact OpsSem.del c ih
  | ins p hp1 hp2 _ ih =>
    have := OpsSem.ins p hp1 hp2 ih
    simpa using this
  | rep c p hp1 hp2 _ ih =>
    have := OpsSem.rep c p hp1 hp2 ih
    simpa using this

theorem getElem?_eq_head_drop (s : List Char) (idx : Nat) :
    s[idx]? = (s.drop idx).head? := by
  induction s generalizing idx with
  | nil => simp
  | cons c s ih =>
    cases idx with
    | zero => simp
    | succ n => simpa using ih n

/-- The central applier lemma: a semantically described op list, placed in
front of any remaining ops, consumes exactly its source span and emits its
target, leaving the remaining ops to run from the advanced cursor. -/
theorem applyCE_opsSem {L : List (List Char)} {src tgt : List Char}
    (h : OpsSem L src tgt) :
    ∀ (s : List Char) (idx i : Nat) (ops2 : List (List Char)) (r : List Char),
      s.drop idx = src ++ r →
      SubwordEdit.applyCE s idx i (L ++ ops2) =
        (SubwordEdit.applyCE s (idx + src.length) (i + L.length) ops2).map
          (tgt ++ ·) := by
  induction h with
  | nil =>
    intro s idx i ops2 r hr
    simp
  | keep c hsem ih =>
    intro s idx i ops2 r hr
    rename_i ops src' tgt'
    have hget : s[idx]? = some c := by
      rw [getElem?_eq_head_drop, hr]
      simp
    have hdrop : s.drop (idx + 1) = src' ++ r := by
      rw [← List.tail_drop, hr]
      simp
    simp only [List.cons_append, SubwordEdit.applyCE, if_pos rfl, hget, if_true,
      List.append_eq]
    rw [ih s (idx + 1) (i + 1) ops2 r hdrop]
    have e1 : idx + 1 + src'.length = idx + (c :: src').length := by
      simp only [List.length_cons]; omega
    have e2 : i + 1 + ops.length = i + (['K'] :: ops).length := by
      simp only [List.length_cons]; omega
    rw [e1, e2, Option.map_map]
    congr 1
  | del c hsem ih =>
    intro s idx i ops2 r hr
    rename_i ops src' tgt
    have hdrop : s.drop (idx + 1) = src' ++ r := by
      rw [← List.tail_drop, hr]
      simp
    have hne : (['D'] : List Char) ≠ ['K'] := by simp
    simp only [List.cons_append, SubwordEdit.applyCE, if_neg hne, if_pos rfl,
      if_true, List.append_eq]
    rw [ih s (idx + 1) (i + 1) ops2 r hdrop]
    have e1 : idx + 1 + src'.length = idx + (c :: src').length := by
      simp only [List.length_cons]; omega
    have e2 : i + 1 + ops.length = i + (['D'] :: ops).length := by
      simp only [List.length_cons]; omega
    rw [e1, e2]
  | ins p hp1 hp2 hsem ih =>
    intro s idx i ops2 r hr
    rename_i ops src tgt'
    have hne1 : mkI p ≠ ['K'] := by simp [mkI]
    have hne2 : mkI p ≠ ['D'] := by simp [mkI]
    have hhd : (mkI p).head? = some 'I' := by simp [mkI]
    simp only [List.cons_append, SubwordEdit.applyCE, if_neg hne1, if_neg hne2,
      hhd, if_pos rfl, if_true, List.append_eq]
    rw [ih s idx (i + 1) ops2 r hr, stripBr_mkI p hp1 hp2]
    have e2 : i + 1 + ops.length = i + (mkI p :: ops).length := by
      simp only [List.length_cons]; omega
    rw [e2, Option.map_map]
    congr 1
    funext x
    simp
  | rep c p hp1 hp2 hsem ih =>
    intro s idx i ops2 r hr
    rename_i ops src' tgt'
    have hdrop : s.drop (idx + 1) = src' ++ r := by
      rw [← List.tail_drop, hr]
      simp
    have hne1 : mkR p ≠ ['K'] := by simp [mkR]
    have hne2 : mkR p ≠ ['D'] := by simp [mkR]
    have hne3 : ¬((mkR p).head? = some 'I') := by simp [mkR]
    have hne4 : ¬((mkR p).head? = some 'A') := by simp [mkR]
    have hne5 : mkR p ≠ ['K', '*'] := by simp [mkR]
    have hne6 : mkR p ≠ ['D', '*'] := by simp [mkR]
    have hhd : (mkR p).head? = some 'R' := by simp [mkR]
    simp only [List.cons_append, SubwordEdit.applyCE, if_neg hne1, if_neg hne2,
      if_neg hne3, if_neg hne4, if_neg hne5, if_neg hne6, hhd, if_pos rfl,
      if_true, List.append_eq]
    rw [ih s (idx + 1) (i + 1) ops2 r hdrop, stripBr_mkR p hp1 hp2]
    have e1 : idx + 1 + src'.length = idx + (c :: src').length := by
      simp only [List.length_cons]; omega
    have e2 : i + 1 + ops.length = i + (mkR p :: ops).length := by
      simp only [List.length_cons]; omega
    rw [e1, e2, Option.map_map]
    rw [if_neg (show ¬(some 'R' = some 'I') by simp),
      if_neg (show ¬(some 'R' = some 'A') by simp)]
    congr 1
    funext x
    simp

theorem opsSem_keeps : ∀ (s : List Char),
    OpsSem (List.replicate s.length ['K']) s s := by
  intro s
  induction s with
  | nil => exact OpsSem.nil
  | cons c s ih => simpa [List.replicate_succ] using OpsSem.keep c ih

theorem opsSem_dels : ∀ (s : List Char),
    OpsSem (s.map fun _ => ['D']) s [] := by
  intro s
  induction s with
  | nil => exact OpsSem.nil
  | cons c s ih => simpa using OpsSem.del c ih

theorem opsSem_reps : ∀ (t s : List Char), s.length = t.length →
    (∀ c ∈ t, c ≠ ']' ∧ c ≠ '\n') →
    OpsSem (t.map fun c => mkR [c]) s t := by
  intro t
  induction t with
  | nil =>
    intro s hl _
    rw [List.length_nil, List.length_eq_zero] at hl
    rw [hl]
    exact OpsSem.nil
  | cons d t ih =>
    intro s hl ht
    cases s with
    | nil => simp at hl
    | cons c s =>
      have hd := ht d (by simp)
      have h := OpsSem.rep c [d]
        (by intro hm; simp at hm; exact hd.1 hm.symm)
        (by intro hm; simp at hm; exact hd.2 hm.symm)
        (ih s (by simpa using hl) fun x hx => ht x (by simp [hx]))
      simpa using h

theorem opsSem_inss : ∀ (t : List Char), (∀ c ∈ t, c ≠ ']' ∧ c ≠ '\n') →
    OpsSem (t.map fun c => mkI [c]) [] t := by
  intro t
  induction t with
  | nil => intro _; exact OpsSem.nil
  | cons d t ih =>
    intro ht
    have hd := ht d (by simp)
    have h := OpsSem.ins [d]
      (by intro hm; simp at hm; exact hd.1 hm.symm)
      (by intro hm; simp at hm; exact hd.2 hm.symm)
      (ih fun x hx => ht x (by simp [hx]))
    simpa using h

theorem flatten_replicate_single (n : Nat) (c : Char) :
    (List.replicate n [c] : List (List Char)).flatten = List.replicate n c := by
  induction n with
  | zero => simp
  | succ n ih => simp [List.replicate_succ, ih]

theorem flatten_map_single {α : Type} (f : α → Char) (l : List α) :
    (l.map fun x => [f x]).flatten = l.map f := by
  induction l with
  | nil => simp
  | cons x l ih => simp [ih]

theorem replaceHH_id : ∀ (s : List Char), containsHH s = false →
    replaceHH s = s := by
  intro s
  induction s with
  | nil => intro _; rfl
  | cons c s ih =>
    intro h
    cases s with
    | nil => rfl
    | cons d rest =>
      simp only [containsHH] at h
      by_cases hcd : c = '#' ∧ d = '#'
      · rw [if_pos hcd] at h
        exact absurd h (by simp)
      · rw [if_neg hcd] at h
        simp only [replaceHH, if_neg hcd]
        rw [ih h]

theorem dropWhile_eq_self_of_none (p : Char → Bool) (s : List Char)
    (h : ∀ c ∈ s, p c = false) : s.dropWhile p = s := by
  cases s with
  | nil => rfl
  | cons c rest => simp [List.dropWhile, h c (by simp)]

theorem pyStrip_id (s : List Char) (h : ∀ c ∈ s, isPySpace c = false) :
    pyStrip s = s := by
  unfold pyStrip
  rw [dropWhile_eq_self_of_none _ s h,
    dropWhile_eq_self_of_none _ s.reverse (fun c hc => h c (by simpa using hc))]
  simp

theorem opsSem_flatten_head {L : List (List Char)} {s t : List Char}
    (h : OpsSem L s t) :
    ∀ c, L.flatten.head? = some c → c = 'K' ∨ c = 'D' ∨ c = 'I' ∨ c = 'R' := by
  intro c hc
  cases h with
  | nil => simp at hc
  | keep _ _ =>
    rw [List.flatten_cons] at hc
    simp only [List.cons_append, List.nil_append, List.head?_cons,
      Option.some.injEq] at hc
    exact Or.inl hc.symm
  | del _ _ =>
    rw [List.flatten_cons] at hc
    simp only [List.cons_append, List.nil_append, List.head?_cons,
      Option.some.injEq] at hc
    exact Or.inr (Or.inl hc.symm)
  | ins p h1 h2 _ =>
    rw [List.flatten_cons] at hc
    simp only [mkI, List.cons_append, List.head?_cons, Option.some.injEq] at hc
    exact Or.inr (Or.inr (Or.inl hc.symm))
  | rep _ p h1 h2 _ =>
    rw [List.flatten_cons] at hc
    simp only [mkR, List.cons_append, List.head?_cons, Option.some.injEq] at hc
    exact Or.inr (Or.inr (Or.inr hc.symm))

theorem opsSem_of_flatten_nil {L : List (List Char)} {s t : List Char}
    (h : OpsSem L s t) (hf : L.flatten = []) : s = [] ∧ t = [] := by
  cases h with
  | nil => exact ⟨rfl, rfl⟩
  | keep _ _ => simp at hf
  | del _ _ => simp at hf
  | ins p h1 h2 _ => simp [mkI] at hf
  | rep _ p h1 h2 _ => simp [mkR] at hf

theorem opsSem_K_whole {L : List (List Char)} {s t : List Char}
    (h : OpsSem L s t) (hf : L.flatten = ['K']) : s = t := by
  cases h with
  | nil => simp at hf
  | keep c hrest =>
    rw [List.flatten_cons] at hf
    simp only [List.cons_append, List.nil_append, List.cons.injEq] at hf
    have := opsSem_of_flatten_nil hrest hf.2
    rw [this.1, this.2]
  | del c hrest =>
    rw [List.flatten_cons] at hf
    simp at hf
  | ins p h1 h2 hrest =>
    rw [List.flatten_cons] at hf
    simp [mkI] at hf
  | rep c p h1 h2 hrest =>
    rw [List.flatten_cons] at hf
    simp [mkR] at hf

theorem take1_head (l : List Char) (a : Char) (h : l.take 1 = [a]) :
    l.head? = some a := by
  cases l with
  | nil => simp at h
  | cons x xs =>
    simp at h
    simp [h]

theorem opsSem_take2 {L : List (List Char)} {s t : List Char}
    (h : OpsSem L s t) :
    L.flatten.take 2 ≠ ['K', 'A'] ∧ L.flatten.take 2 ≠ ['D', 'A'] := by
  cases h with
  | nil => simp
  | keep c hrest =>
    rename_i ops src tgt
    rw [List.flatten_cons]
    constructor
    · intro heq
      simp only [List.cons_append, List.nil_append, List.take_succ_cons,
        List.cons.injEq] at heq
      have := take1_head _ _ heq.2
      rcases opsSem_flatten_head hrest 'A' this with h | h | h | h <;> simp at h
    · intro heq
      simp at heq
  | del c hrest =>
    rename_i ops src
    rw [List.flatten_cons]
    constructor
    · intro heq
      simp at heq
    · intro heq
      simp only [List.cons_append, List.nil_append, List.take_succ_cons,
        List.cons.injEq] at heq
      have := take1_head _ _ heq.2
      rcases opsSem_flatten_head hrest 'A' this with h | h | h | h <;> simp at h
  | ins p h1 h2 hrest =>
    rw [List.flatten_cons]
    constructor <;> simp [mkI]
  | rep c p h1 h2 hrest =>
    rw [List.flatten_cons]
    constructor <;> simp [mkR]

/-- `SubwordEdit.apply` realizes an op list's semantics on a fully consumed
piece with no continuation marker. -/
theorem apply_opsSem {L : List (List Char)} {src tgt : List Char}
    (h : OpsSem L src tgt) (hHH : containsHH src = false) :
    SubwordEdit.apply L.flatten src = some tgt := by
  unfold SubwordEdit.apply
  by_cases hK : L.flatten = ['K']
  · rw [if_pos hK, opsSem_K_whole h hK]
  rw [if_neg hK, if_neg (opsSem_take2 h).1, if_neg (opsSem_take2 h).2]
  simp only [replaceHH_id src hHH, hHH]
  have happ := applyCE_opsSem h src 0 0 [] []
    (by simp)
  rw [List.append_nil] at happ
  rw [findOpsA_encOps L h.encOps, happ]
  simp [SubwordEdit.applyCE]

/-- On a space-free source longer than the target, the fallback's loop emits
one replacement per target character. -/
theorem geLoop_spacefree : ∀ (t s : List Char), ' ' ∉ s → t.length ≤ s.length →
    geLoop s t = ((t.map fun c => mkR [c]).flatten, s.drop t.length, []) := by
  intro t
  induction t with
  | nil =>
    intro s _ _
    cases s <;> simp [geLoop]
  | cons d t ih =>
    intro s hsp hl
    cases s with
    | nil => simp at hl
    | cons c s =>
      have hc : c ≠ ' ' := fun h => hsp (h ▸ List.mem_cons_self c s)
      simp only [geLoop, if_pos hc]
      rw [ih s (fun hm => hsp (List.mem_cons_of_mem _ hm)) (by simpa using hl)]
      simp

/-- Under the round-trip hypotheses, `get_edits` emits semantics-correct
ops: one replacement per target character then deletions. -/
theorem get_edits_opsSem (s t : List Char)
    (hsp : ∀ c ∈ s, isPySpace c = false)
    (ht : ∀ c ∈ t, c ≠ ']' ∧ c ≠ '\n')
    (hlen : t.length < s.length)
    (hsub : strIn t s = false) :
    ∃ L, get_edits s t = some L.flatten ∧ OpsSem L s t := by
  have hnosp : ' ' ∉ s := fun hm => by
    have := hsp ' ' hm
    simp [isPySpace] at this
  unfold get_edits
  by_cases h1 : t = []
  · rw [if_pos h1]
    refine ⟨s.map fun _ => ['D'], ?_, ?_⟩
    · rw [Option.some_inj]
      have : (List.replicate s.length 'D') =
          ((s.map fun _ => ['D']) : List (List Char)).flatten := by
        rw [show ((s.map fun _ => ['D']) : List (List Char)) =
            s.map fun c => [(fun _ => 'D') c] from rfl]
        rw [flatten_map_single]
        induction s with
        | nil => simp
        | cons c s ih => simpa [List.replicate_succ] using ih
      rw [this]
    · rw [h1]
      exact opsSem_dels s
  rw [if_neg h1, if_neg (by simp [hsub])]
  have h3 : ¬((pyStrip s).length = 1 ∧ t.length = 1) := by
    rw [pyStrip_id s hsp]
    intro hcon
    omega
  rw [if_neg h3]
  rw [geLoop_spacefree t s hnosp (by omega)]
  refine ⟨(t.map fun c => mkR [c]) ++ ((s.drop t.length).map fun _ => ['D']),
    ?_, ?_⟩
  · simp only []
    rw [if_pos trivial, Option.some_inj]
    rw [List.flatten_append]
    congr 1
    rw [show (((s.drop t.length).map fun _ => ['D']) : List (List Char)) =
        (s.drop t.length).map fun c => [(fun _ => 'D') c] from rfl]
    rw [flatten_map_single]
    generalize (s.drop t.length) = l
    induction l with
    | nil => simp
    | cons c l ih => simpa [List.replicate_succ] using ih
  · have hsplit : s = s.take t.length ++ s.drop t.length := by simp
    have h4 := (opsSem_reps t (s.take t.length)
      (by rw [List.length_take]; omega) ht).append_sem
      (opsSem_dels (s.drop t.length))
    rw [List.append_nil] at h4
    nth_rewrite 2 [hsplit]
    exact h4

/-- Under the round-trip hypotheses, `_replacments` emits semantics-correct
ops. -/
theorem replacments_opsSem (s t : List Char)
    (hsp : ∀ c ∈ s, isPySpace c = false)
    (ht : ∀ c ∈ t, c ≠ ']' ∧ c ≠ '\n')
    (hs : s ≠ []) (hle : s.length ≤ t.length) :
    ∃ L, Edit.replacments s t = L.flatten ∧ OpsSem L s t := by
  have hnosp : ' ' ∉ s := fun hm => by
    have := hsp ' ' hm
    simp [isPySpace] at this
  unfold Edit.replacments
  by_cases h1 : t.length = 1
  · rw [if_pos h1]
    have hsl : s.length = 1 := by
      have : 1 ≤ s.length := by
        cases s with
        | nil => exact absurd rfl hs
        | cons a l => simp
      omega
    obtain ⟨c, hc⟩ : ∃ c, s = [c] := by
      cases s with
      | nil => simp at hsl
      | cons a l =>
        cases l with
        | nil => exact ⟨a, rfl⟩
        | cons b l' => simp at hsl
    have hcl := cleanChars_not_mem ht
    refine ⟨[mkR t], by simp, ?_⟩
    rw [hc]
    have := OpsSem.rep c t hcl.1 hcl.2 OpsSem.nil
    simpa using this
  rw [if_neg h1]
  by_cases h2 : s.length = t.length
  · rw [if_pos h2]
    have hmap : ((s.zip t).map fun p =>
        if p.1 = ' ' then 'M' :: mkI [p.2] else mkR [p.2]) =
        (s.zip t).map fun p => mkR [p.2] := by
      refine List.map_congr_left fun p hp => ?_
      have : p.1 ≠ ' ' := by
        intro hsp'
        exact hnosp (hsp' ▸ (List.of_mem_zip hp).1)
      rw [if_neg this]
    rw [hmap]
    have hsnd : (s.zip t).map (fun p => mkR [p.2]) =
        t.map fun c => mkR [c] := by
      have h := List.map_snd_zip s t (by omega)
      calc (s.zip t).map (fun p => mkR [p.2])
          = ((s.zip t).map Prod.snd).map (fun c => mkR [c]) := by
            rw [List.map_map]; rfl
        _ = t.map fun c => mkR [c] := by rw [h]
    rw [hsnd]
    exact ⟨t.map fun c => mkR [c], rfl, opsSem_reps t s h2 ht⟩
  · rw [if_neg h2]
    refine ⟨(t.take s.length).map (fun c => mkR [c]) ++
      (t.drop s.length).map fun c => mkI [c], ?_, ?_⟩
    · rw [List.flatten_append]
    · have hsplit : t = t.take s.length ++ t.drop s.length := by simp
      have h4 := (opsSem_reps (t.take s.length) s
        (by rw [List.length_take]; omega)
        (fun c hc => ht c (List.mem_of_mem_take hc))).append_sem
        (opsSem_inss (t.drop s.length)
          (fun c hc => ht c (List.mem_of_mem_drop hc)))
      rw [List.append_nil] at h4
      nth_rewrite 3 [hsplit]
      exact h4

/-- Under the round-trip hypotheses each group pair's edit is produced
normally and is semantics-correct. -/
theorem groupEdit_opsSem (s t : List Char)
    (hsp : ∀ c ∈ s, isPySpace c = false)
    (ht : ∀ c ∈ t, c ≠ ']' ∧ c ≠ '\n')
    (hsub : t.length < s.length → strIn t s = false) :
    ∃ L, Edit.groupEdit s t = some L.flatten ∧ OpsSem L s t := by
  have hns : s ≠ [' '] := by
    intro he
    have := hsp ' ' (by rw [he]; simp)
    simp [isPySpace] at this
  unfold Edit.groupEdit
  by_cases h1 : s = t
  · rw [if_pos h1, if_neg hns]
    refine ⟨List.replicate s.length ['K'], ?_, ?_⟩
    · rw [flatten_replicate_single]
    · rw [← h1]
      exact opsSem_keeps s
  rw [if_neg h1]
  rw [if_neg (fun hcon => hns hcon.1), if_neg (fun hcon => hns hcon.1)]
  by_cases h4 : s ≠ [] ∧ t = []
  · rw [if_pos h4]
    refine ⟨s.map fun _ => ['D'], ?_, ?_⟩
    · rw [Option.some_inj]
      have hmap : (s.map fun c => if c ≠ ' ' then 'D' else 'M') =
          s.map fun _ => 'D' := by
        refine List.map_congr_left fun c hc => ?_
        rw [if_pos (fun he => by
          have := hsp c hc
          rw [he] at this
          simp [isPySpace] at this)]
      rw [hmap]
      rw [show ((s.map fun _ => ['D']) : List (List Char)) =
          s.map fun c => [(fun _ => 'D') c] from rfl]
      rw [flatten_map_single]
    · rw [h4.2]
      exact opsSem_dels s
  rw [if_neg h4]
  by_cases h5 : s = [] ∧ t ≠ []
  · rw [if_pos h5]
    have hcl := cleanChars_not_mem ht
    refine ⟨[mkI t], by simp, ?_⟩
    rw [h5.1]
    have := OpsSem.ins t hcl.1 hcl.2 OpsSem.nil
    simpa using this
  rw [if_neg h5]
  by_cases h6 : s.length > t.length
  · rw [if_pos h6]
    have htne : t ≠ [] := by
      intro he
      exact h4 ⟨fun hse => h1 (by rw [hse, he]), he⟩
    obtain ⟨L, hge, hsem⟩ := get_edits_opsSem s t hsp ht h6 (hsub h6)
    exact ⟨L, hge, hsem⟩
  · rw [if_neg h6]
    have hs : s ≠ [] := by
      intro hnil
      by_cases htn : t = []
      · exact h1 (by rw [hnil, htn])
      · exact h5 ⟨hnil, htn⟩
    obtain ⟨L, hge, hsem⟩ := replacments_opsSem s t hsp ht hs (by omega)
    exact ⟨L, by rw [hge], hsem⟩

/-- The detailed-case loop succeeds under the round-trip hypotheses and its
result is semantics-correct for the concatenated groups. -/
theorem detailedGo_opsSem : ∀ (ps : List (List Char × List Char)),
    (∀ p ∈ ps, (∀ c ∈ p.1, isPySpace c = false) ∧
      (∀ c ∈ p.2, c ≠ ']' ∧ c ≠ '\n') ∧
      (p.2.length < p.1.length → strIn p.2 p.1 = false)) →
    ∃ L, Edit.detailedGo ps = some L.flatten ∧
      OpsSem L ((ps.map Prod.fst).flatten) ((ps.map Prod.snd).flatten) := by
  intro ps
  induction ps with
  | nil =>
    intro _
    exact ⟨[], by simp [Edit.detailedGo], OpsSem.nil⟩
  | cons p ps ih =>
    intro h
    obtain ⟨hp1, hp2, hp3⟩ := h p (by simp)
    obtain ⟨L1, hg1, hs1⟩ := groupEdit_opsSem p.1 p.2 hp1 hp2 hp3
    obtain ⟨L2, hg2, hs2⟩ := ih fun q hq => h q (by simp [hq])
    refine ⟨L1 ++ L2, ?_, ?_⟩
    · simp only [Edit.detailedGo, hg1, hg2, Option.map_some', Option.some_inj]
      rw [List.flatten_append]
    · simp only [List.map_cons, List.flatten_cons]
      exact hs1.append_sem hs2

/-- C1 (amended): the encoder/applier round-trip holds for aligned group
pairs in which (a) source groups carry no whitespace, (b) target text avoids
the op-grammar's reserved `]` and newline, (c) no shrinking pair takes the
character-scavenging substring branch, (d) a merge-case pair has
single-character source groups, and (e) the source word carries no `##`
continuation marker: then `Edit.create` succeeds and `SubwordEdit.apply` of
the produced tag on the stored word reconstructs the joined target exactly.
(The counterexample shows the claim fails without such restrictions: any
space in the source word desynchronizes the whole-word application, because
`M`/`S` ops consume no characters at apply time.) -/
theorem edit_create_roundtrip (S T : List (List Char))
    (hlen : S.length = T.length)
    (hsp : ∀ g ∈ S, ∀ c ∈ g, isPySpace c = false)
    (hT : ∀ g ∈ T, ∀ c ∈ g, c ≠ ']' ∧ c ≠ '\n')
    (hsub : ∀ p ∈ S.zip T, p.2.length < p.1.length → strIn p.2 p.1 = false)
    (hM : is_merge S T = true → ∀ g ∈ S, g.length = 1)
    (hHH : containsHH S.flatten = false) :
    ∃ w e, Edit.create S T = some (w, e) ∧
      SubwordEdit.apply e w = some T.flatten := by
  unfold Edit.create
  simp only []
  by_cases h1 : S = T
  · rw [if_pos h1]
    refine ⟨S.flatten, ['K'], rfl, ?_⟩
    unfold SubwordEdit.apply
    rw [if_pos rfl, h1]
  rw [if_neg h1]
  by_cases h2 : S = [[]] ∧ T ≠ [[]]
  · rw [if_pos h2]
    refine ⟨S.flatten, mkI T.flatten, rfl, ?_⟩
    have hcln : ∀ c ∈ T.flatten, c ≠ ']' ∧ c ≠ '\n' := by
      intro c hc
      obtain ⟨g, hg, hcg⟩ := List.mem_flatten.mp hc
      exact hT g hg c hcg
    have hcl := cleanChars_not_mem hcln
    have hsem : OpsSem [mkI T.flatten] [] T.flatten := by
      have := OpsSem.ins T.flatten hcl.1 hcl.2 OpsSem.nil
      simpa using this
    have happ := apply_opsSem hsem (by rfl)
    rw [h2.1]
    simpa using happ
  rw [if_neg h2]
  by_cases h3 : S ≠ [[]] ∧ T = [[]]
  · rw [if_pos h3]
    refine ⟨S.flatten, ['D'], rfl, ?_⟩
    rw [h3.2]
    unfold SubwordEdit.apply
    rw [if_neg (by simp), if_neg (by simp), if_neg (by simp)]
    simp only [replaceHH_id _ hHH, hHH]
    have hops : findOpsA ['D'] = [['D']] := by
      have := findOpsA_encOps [['D']] (by
        intro op hop
        simp at hop
        rw [hop]
        exact EncOp.D)
      simpa using this
    rw [hops]
    simp [SubwordEdit.applyCE]
  rw [if_neg h3]
  by_cases h4 : is_merge S T = true
  · rw [if_pos h4]
    have hall1 := hM h4
    have hnsp : ∀ g ∈ S, g ≠ [' '] := by
      intro g hg he
      have := hsp g hg ' ' (by rw [he]; simp)
      simp [isPySpace] at this
    have hmap : (S.map fun g => if g ≠ [' '] then 'K' else 'M') =
        List.replicate S.length 'K' := by
      have h5 : (S.map fun g => if g ≠ [' '] then 'K' else 'M') =
          S.map fun _ => 'K' :=
        List.map_congr_left fun g hg => by rw [if_pos (hnsp g hg)]
      rw [h5]
      induction S with
      | nil => simp
      | cons g S ih => simpa [List.replicate_succ] using ih
    rw [hmap]
    refine ⟨S.flatten, List.replicate S.length 'K', rfl, ?_⟩
    have hwlen : S.flatten.length = S.length := flatten_length_of_singles S hall1
    have happ := apply_opsSem (opsSem_keeps S.flatten) hHH
    rw [flatten_replicate_single, hwlen] at happ
    rw [happ]
    have hfil : S.filter (· ≠ [' ']) = S :=
      List.filter_eq_self.mpr fun g hg => by simp [hnsp g hg]
    have hmg : S.flatten = T.flatten := by
      unfold is_merge at h4
      rw [hfil] at h4
      simpa using h4
    rw [hmg]
  rw [if_neg h4]
  unfold Edit.generate_detailed_edit
  obtain ⟨L, hd, hsem⟩ := detailedGo_opsSem (S.zip T) (by
    intro p hp
    refine ⟨hsp p.1 (List.of_mem_zip hp).1, hT p.2 (List.of_mem_zip hp).2,
      hsub p hp⟩)
  rw [hd]
  refine ⟨S.flatten, L.flatten, by simp, ?_⟩
  have hfst : (S.zip T).map Prod.fst = S := List.map_fst_zip S T (by omega)
  have hsnd : (S.zip T).map Prod.snd = T := List.map_snd_zip S T (by omega)
  rw [hfst, hsnd] at hsem
  exact apply_opsSem hsem hHH

/-- C1 (counterexample).  For the aligned pair merging `a b` into `ab`
(scenario 2 of the spec, in miniature), `Edit.create` yields the word `a b`
with tag `KMK`; applying that tag to the literal source word as a single
whole-word piece yields `a ` — the `M` op consumes no character at apply
time, so the space of the stored word desynchronizes the cursor — not the
joined target `ab`. -/
theorem edit_create_roundtrip_cex :
    Edit.create [("a".toList), (" ".toList), ("b".toList)]
        [("a".toList), ([] : List Char), ("b".toList)] =
      some ("a b".toList, "KMK".toList) ∧
    SubwordEdit.apply ("KMK".toList) ("a b".toList) = some ("a ".toList) ∧
    ("a ".toList) ≠
      ([("a".toList), ([] : List Char), ("b".toList)] : List (List Char)).flatten := by
  have he : ("KMK".toList) = ([['K'], ['M'], ['K']] : List (List Char)).flatten := by
    decide
  have hops : findOpsA ("KMK".toList) = [['K'], ['M'], ['K']] := by
    rw [he]
    refine findOpsA_encOps _ ?_
    intro op hop
    simp at hop
    rcases hop with h | h | h
    · rw [h]; exact EncOp.K
    · rw [h]; exact EncOp.M
    · rw [h]; exact EncOp.K
  refine ⟨by decide, ?_, by decide⟩
  unfold SubwordEdit.apply
  rw [if_neg (by decide), if_neg (by decide), if_neg (by decide), hops]
  decide

/-- C1 (witness): the amended theorem at the single-typo pair
`(["teh"], ["the"])`. -/
theorem edit_create_roundtrip_witness :
    ∃ w e, Edit.create [("teh".toList)] [("the".toList)] = some (w, e) ∧
      SubwordEdit.apply e w =
        some ([("the".toList)] : List (List Char)).flatten :=
  edit_create_roundtrip [("teh".toList)] [("the".toList)]
    (by decide) (by decide) (by decide) (by decide) (by decide) (by decide)

/-! ## C7: idempotence of `compress_edit`

The op classes of `compress_edit`'s tokenizer on well-formed tags: runs of
`K`/`D`, harmless single characters, and single-bracket ops with clean
payloads.  (The counterexample shows idempotence fails outside this class,
when a `]` inside an insertion payload shifts the bracket structure on
re-parsing.) -/

inductive COp : List Char → Prop
  | krun (n : Nat) (h : 1 ≤ n) : COp (List.replicate n 'K')
  | drun (n : Nat) (h : 1 ≤ n) : COp (List.replicate n 'D')
  | single (c : Char)
      (h : ¬(c = 'K' ∨ c = 'D' ∨ c = 'I' ∨ c = 'A' ∨ c = 'R' ∨
        c = '[' ∨ c = ']' ∨ c = '_' ∨ c = '\n')) : COp [c]
  | bracket (x : Char) (p : List Char) (hx : x = 'I' ∨ x = 'A' ∨ x = 'R')
      (h1 : ']' ∉ p) (h2 : '\n' ∉ p) : COp (x :: '_' :: '[' :: (p ++ [']']))

/-- The test `edit.startswith('I_')` of `compress_insertions`. -/
def isIop (op : List Char) : Prop := op.take 2 = ['I', '_']

instance (op : List Char) : Decidable (isIop op) := by
  unfold isIop
  infer_instance

theorem COp.cop_ne_nil {op : List Char} (h : COp op) : op ≠ [] := by
  cases h with
  | krun n hn => simp [List.replicate, Nat.lt_of_lt_of_le Nat.zero_lt_one hn]
    <;> omega
  | drun n hn => simp; omega
  | single c h => simp
  | bracket x p hx h1 h2 => simp

/-- An `I_`-headed op in the class is a clean single-bracket insertion. -/
theorem COp.iop_shape {op : List Char} (h : COp op) (hi : isIop op) :
    ∃ p, op = mkI p ∧ ']' ∉ p ∧ '\n' ∉ p := by
  cases h with
  | krun n hn =>
    exfalso
    unfold isIop at hi
    cases n with
    | zero => omega
    | succ m =>
      cases m with
      | zero => simp [List.replicate] at hi
      | succ m' => simp [List.replicate] at hi
  | drun n hn =>
    exfalso
    unfold isIop at hi
    cases n with
    | zero => omega
    | succ m =>
      cases m with
      | zero => simp [List.replicate] at hi
      | succ m' => simp [List.replicate] at hi
  | single c hc =>
    exfalso
    unfold isIop at hi
    simp at hi
  | bracket x p hx h1 h2 =>
    unfold isIop at hi
    simp at hi
    exact ⟨p, by rw [hi, mkI]; simp, h1, h2⟩

/-- The output shape of `compress_insertions` on class-clean op lists:
non-insertion class ops interleaved with isolated, non-empty, clean merged
insertions. -/
inductive MChain : List (List Char) → Prop
  | nil : MChain []
  | consNonI (op : List Char) (ops : List (List Char)) (h : COp op)
      (hni : ¬isIop op) (hops : MChain ops) : MChain (op :: ops)
  | consI (p : List Char) (ops : List (List Char)) (hp : p ≠ [])
      (h1 : ']' ∉ p) (h2 : '\n' ∉ p) (hops : MChain ops)
      (hnI : ∀ op2 ∈ ops.head?, ¬isIop op2) : MChain (mkI p :: ops)

theorem ciGo_mchain : ∀ (L : List (List Char)), (∀ op ∈ L, COp op) →
    ∀ ins, ']' ∉ ins → '\n' ∉ ins → MChain (ciGo ins L) := by
  intro L
  induction L with
  | nil =>
    intro _ ins h1 h2
    unfold ciGo
    by_cases hne : ins ≠ []
    · rw [if_pos hne]
      exact MChain.consI ins [] hne h1 h2 MChain.nil (by simp)
    · rw [if_neg hne]
      exact MChain.nil
  | cons op rest ih =>
    intro h ins h1 h2
    have hop := h op (by simp)
    have hrest : ∀ o ∈ rest, COp o := fun o ho => h o (by simp [ho])
    unfold ciGo
    by_cases hi : op.take 2 = ['I', '_']
    · rw [if_pos hi]
      obtain ⟨p, hshape, hp1, hp2⟩ := hop.iop_shape hi
      rw [hshape, stripBr_mkI p hp1 hp2]
      exact ih hrest (ins ++ p) (by simp [h1, hp1]) (by simp [h2, hp2])
    · rw [if_neg hi]
      by_cases hne : ins ≠ []
      · rw [if_pos hne]
        exact MChain.consI ins _ hne h1 h2
          (MChain.consNonI op _ hop hi (ih hrest [] (by simp) (by simp)))
          (by simp [isIop, hi])
      · rw [if_neg hne]
        exact MChain.consNonI op _ hop hi (ih hrest [] (by simp) (by simp))

theorem MChain.ops_ne_nil {M : List (List Char)} (h : MChain M) :
    ∀ op ∈ M, op ≠ [] := by
  induction h with
  | nil => simp
  | consNonI op ops hop hni hops ih =>
    intro o ho
    rcases List.mem_cons.mp ho with h | h
    · rw [h]; exact hop.cop_ne_nil
    · exact ih o h
  | consI p ops hp h1 h2 hops hnI ih =>
    intro o ho
    rcases List.mem_cons.mp ho with h | h
    · rw [h]; simp [mkI]
    · exact ih o h

theorem mchain_flatten_head {M : List (List Char)} (h : MChain M)
    {op : List Char} {rest : List (List Char)} (he : M = op :: rest) :
    M.flatten.head? = op.head? := by
  rw [he, List.flatten_cons]
  have : op ≠ [] := h.ops_ne_nil op (by rw [he]; simp)
  exact List.head?_append_of_ne_nil _ this

theorem takeWhile_replicate_append (c : Char) (m : Nat) (f : List Char) :
    (List.replicate m c ++ f).takeWhile (· = c) =
      List.replicate m c ++ f.takeWhile (· = c) := by
  induction m with
  | zero => simp
  | succ m ih => simp [List.replicate_succ, List.takeWhile, ih]

theorem dropWhile_replicate_append (c : Char) (m : Nat) (f : List Char) :
    (List.replicate m c ++ f).dropWhile (· = c) = f.dropWhile (· = c) := by
  induction m with
  | zero => simp
  | succ m ih => simp [List.replicate_succ, List.dropWhile, ih]

theorem takeWhile_eq_nil_of_head (f : List Char) (c : Char)
    (h : f.head? ≠ some c) : f.takeWhile (· = c) = [] := by
  cases f with
  | nil => rfl
  | cons a f' =>
    have : a ≠ c := by
      intro he
      exact h (by simp [he])
    simp [List.takeWhile, this]

theorem dropWhile_eq_self_of_head (f : List Char) (c : Char)
    (h : f.head? ≠ some c) : f.dropWhile (· = c) = f := by
  cases f with
  | nil => rfl
  | cons a f' =>
    have : a ≠ c := by
      intro he
      exact h (by simp [he])
    simp [List.dropWhile, this]

theorem not_isIop_of_head {op : List Char} (h : op.head? ≠ some 'I') :
    ¬isIop op := by
  intro hi
  unfold isIop at hi
  cases op with
  | nil => simp at hi
  | cons a rest =>
    have : a = 'I' := by
      cases rest <;> simp [List.take] at hi <;> exact hi.1
    exact h (by simp [this])

theorem isIop_head {op : List Char} (h : isIop op) : op.head? = some 'I' := by
  unfold isIop at h
  cases op with
  | nil => simp at h
  | cons a rest =>
    cases rest with
    | nil => simp [List.take] at h
    | cons b rest' =>
      simp [List.take] at h
      simp [h.1]

/-- In an `MChain`, an op whose first character is `I` is an insertion op. -/
theorem mchain_head_I_isIop {op2 : List Char} {rest2 : List (List Char)}
    (h : MChain (op2 :: rest2)) (hh : op2.head? = some 'I') : isIop op2 := by
  cases h with
  | consNonI _ _ hop hni hops =>
    exfalso
    cases hop with
    | krun n hn =>
      cases n with
      | zero => omega
      | succ m => simp [List.replicate_succ] at hh
    | drun n hn =>
      cases n with
      | zero => omega
      | succ m => simp [List.replicate_succ] at hh
    | single c hc =>
      simp at hh
      rw [hh] at hc
      simp at hc
    | bracket x p hx h1 h2 =>
      simp at hh
      rw [hh] at hx
      exact hni (by simp [isIop, hh])
  | consI p _ hp h1 h2 hops hnI => simp [isIop, mkI]

theorem mchain_flatten_head_ne_rb {X : List (List Char)} (h : MChain X) :
    X.flatten.head? ≠ some ']' := by
  cases h with
  | nil => simp
  | consNonI op rest hop hni hrest =>
    rw [mchain_flatten_head (MChain.consNonI op rest hop hni hrest) rfl]
    cases hop with
    | krun n hn =>
      cases n with
      | zero => omega
      | succ m => simp [List.replicate_succ]
    | drun n hn =>
      cases n with
      | zero => omega
      | succ m => simp [List.replicate_succ]
    | single c hc =>
      simp only [List.head?_cons]
      intro he
      injection he with he
      rw [he] at hc
      simp at hc
    | bracket x p hx h1 h2 =>
      simp only [List.head?_cons]
      intro he
      injection he with he
      rw [he] at hx
      simp at hx
  | consI p rest hp h1 h2 hrest hnI =>
    rw [mchain_flatten_head (MChain.consI p rest hp h1 h2 hrest hnI) rfl]
    simp [mkI]

theorem mchain_flatten_head_kd {X : List (List Char)} (c : Char)
    (hc : c = 'K' ∨ c = 'D') (h : MChain X) (hh : X.flatten.head? = some c) :
    ∃ m rest2, 1 ≤ m ∧ X = List.replicate m c :: rest2 ∧ MChain rest2 := by
  cases h with
  | nil => simp at hh
  | consNonI op rest hop hni hrest =>
    rw [mchain_flatten_head (MChain.consNonI op rest hop hni hrest) rfl] at hh
    cases hop with
    | krun n hn =>
      refine ⟨n, rest, hn, ?_, hrest⟩
      have : c = 'K' := by
        cases n with
        | zero => omega
        | succ m =>
          simp [List.replicate_succ] at hh
          rw [hh]
      rw [this]
    | drun n hn =>
      refine ⟨n, rest, hn, ?_, hrest⟩
      have : c = 'D' := by
        cases n with
        | zero => omega
        | succ m =>
          simp [List.replicate_succ] at hh
          rw [hh]
      rw [this]
    | single c' hc' =>
      exfalso
      simp only [List.head?_cons, Option.some_inj] at hh
      rw [hh] at hc'
      rcases hc with h | h <;> simp [h] at hc'
    | bracket x p hx h1 h2 =>
      exfalso
      simp only [List.head?_cons, Option.some_inj] at hh
      rw [hh] at hx
      rcases hc with h | h <;> rw [h] at hx <;> simp at hx
  | consI p rest hp h1 h2 hrest hnI =>
    exfalso
    rw [mchain_flatten_head (MChain.consI p rest hp h1 h2 hrest hnI) rfl] at hh
    simp only [mkI, List.head?_cons, Option.some_inj] at hh
    rcases hc with h | h <;> rw [h] at hh <;> simp at hh


theorem mchain_eq_nil_of_flatten {X : List (List Char)} (h : MChain X)
    (hf : X.flatten = []) : X = [] := by
  cases X with
  | nil => rfl
  | cons op rest =>
    exfalso
    rw [List.flatten_cons, List.append_eq_nil] at hf
    exact h.ops_ne_nil op (by simp) hf.1

theorem findOpsC_bracket (x : Char) (p s : List Char)
    (hx : x = 'I' ∨ x = 'R' ∨ x = 'A') (h1 : ']' ∉ p) (h2 : '\n' ∉ p)
    (hs : s.head? ≠ some ']') :
    findOpsC (x :: '_' :: '[' :: (p ++ [']']) ++ s) =
      (x :: '_' :: '[' :: (p ++ [']'])) :: findOpsC s := by
  rw [show (x :: '_' :: '[' :: (p ++ [']']) ++ s) =
    x :: ('_' :: '[' :: (p ++ ']' :: s)) by simp]
  rw [findOpsC]
  rw [if_pos hx]
  rw [takeBracket_clean x p s h1 h2 hs]

theorem findOpsC_run (c : Char) (rest : List Char) (hc : c = 'D' ∨ c = 'K') :
    findOpsC (c :: rest) =
      (c :: rest.takeWhile (· = c)) :: findOpsC (rest.dropWhile (· = c)) := by
  rw [findOpsC]
  rw [if_neg (by rcases hc with h | h <;> simp [h]), if_pos hc]

theorem findOpsC_single (c : Char) (rest : List Char)
    (hc1 : ¬(c = 'I' ∨ c = 'R' ∨ c = 'A')) (hc2 : ¬(c = 'D' ∨ c = 'K'))
    (hc3 : ¬c = '\n') :
    findOpsC (c :: rest) = [c] :: findOpsC rest := by
  rw [findOpsC]
  rw [if_neg hc1, if_neg hc2, if_neg hc3]

theorem findOpsC_replicate (c : Char) (m : Nat) (hm : 1 ≤ m)
    (hc : c = 'D' ∨ c = 'K') (s : List Char) (hs : s.head? ≠ some c) :
    findOpsC (List.replicate m c ++ s) = List.replicate m c :: findOpsC s := by
  obtain ⟨m', rfl⟩ : ∃ m', m = m' + 1 := ⟨m - 1, by omega⟩
  rw [List.replicate_succ, List.cons_append, findOpsC_run c _ hc]
  rw [takeWhile_replicate_append c m' s, takeWhile_eq_nil_of_head s c hs,
    dropWhile_replicate_append c m' s, dropWhile_eq_self_of_head s c hs,
    List.append_nil, ← List.replicate_succ]

theorem replicate_head_some (c : Char) (m : Nat) (hm : 1 ≤ m) :
    (List.replicate m c).head? = some c := by
  obtain ⟨m', rfl⟩ : ∃ m', m = m' + 1 := ⟨m - 1, by omega⟩
  rw [List.replicate_succ]
  rfl

/-- Re-parsing the flattening of a compressed op chain yields an op list
with the same flattening that is again a compressed op chain (adjacent
same-letter runs may regroup, leaving the flattening unchanged). -/
theorem parse_mflatten : ∀ (n : Nat) (M : List (List Char)), M.length ≤ n →
    MChain M →
    ∃ N, findOpsC M.flatten = N ∧ N.flatten = M.flatten ∧ MChain N := by
  intro n
  induction n with
  | zero =>
    intro M hn hM
    have : M = [] := by
      cases M with
      | nil => rfl
      | cons a b => simp at hn
    rw [this]
    exact ⟨[], by simp [findOpsC], by simp, MChain.nil⟩
  | succ n ih =>
    intro M hn hM
    cases hM with
    | nil => exact ⟨[], by simp [findOpsC], by simp, MChain.nil⟩
    | consNonI op rest hop hni hrest =>
      cases hop with
      | single c hc =>
        simp only [not_or] at hc
        obtain ⟨hK, hD, hI, hA, hR, hLB, hRB, hU, hN⟩ := hc
        obtain ⟨N', hp1, hp2, hp3⟩ := ih rest (by simpa using hn) hrest
        refine ⟨[c] :: N', ?_, ?_, ?_⟩
        · rw [List.flatten_cons, List.singleton_append,
            findOpsC_single c _ (by simp [hI, hR, hA]) (by simp [hD, hK]) hN,
            hp1]
        · simp [hp2]
        · exact MChain.consNonI [c] N'
            (COp.single c (by simp [hK, hD, hI, hA, hR, hLB, hRB, hU, hN]))
            (not_isIop_of_head (by simp [hI])) hp3
      | bracket x p hx h1 h2 =>
        obtain ⟨N', hp1, hp2, hp3⟩ := ih rest (by simpa using hn) hrest
        have hhd : (rest.flatten).head? ≠ some ']' := mchain_flatten_head_ne_rb hrest
        refine ⟨(x :: '_' :: '[' :: (p ++ [']'])) :: N', ?_, ?_, ?_⟩
        · rw [List.flatten_cons,
            findOpsC_bracket x p _ (by rcases hx with h | h | h <;> simp [h]) h1 h2 hhd,
            hp1]
        · simp [hp2]
        · exact MChain.consNonI _ N' (COp.bracket x p hx h1 h2) hni hp3
      | krun m hm =>
        by_cases hhd : rest.flatten.head? = some 'K'
        · obtain ⟨m2, rest2, hm2, hre, hrest2⟩ :=
            mchain_flatten_head_kd 'K' (Or.inl rfl) hrest hhd
          have hmc : MChain (List.replicate (m + m2) 'K' :: rest2) :=
            MChain.consNonI _ rest2 (COp.krun (m + m2) (by omega))
              (not_isIop_of_head (by rw [replicate_head_some 'K' _ (by omega)]; simp))
              hrest2
          obtain ⟨N, hq1, hq2, hq3⟩ := ih (List.replicate (m + m2) 'K' :: rest2)
            (by rw [hre] at hn; simp only [List.length_cons] at hn ⊢; omega) hmc
          have hflat : (List.replicate (m + m2) 'K' :: rest2).flatten =
              (List.replicate m 'K' :: rest).flatten := by
            rw [hre, List.flatten_cons, List.flatten_cons, List.flatten_cons,
              List.replicate_add, List.append_assoc]
          rw [hflat] at hq1 hq2
          exact ⟨N, hq1, hq2, hq3⟩
        · obtain ⟨N', hp1, hp2, hp3⟩ := ih rest (by simpa using hn) hrest
          refine ⟨List.replicate m 'K' :: N', ?_, ?_, ?_⟩
          · rw [List.flatten_cons,
              findOpsC_replicate 'K' m hm (Or.inr rfl) _ hhd, hp1]
          · simp [hp2]
          · exact MChain.consNonI _ N' (COp.krun m hm)
              (not_isIop_of_head (by rw [replicate_head_some 'K' _ hm]; simp)) hp3
      | drun m hm =>
        by_cases hhd : rest.flatten.head? = some 'D'
        · obtain ⟨m2, rest2, hm2, hre, hrest2⟩ :=
            mchain_flatten_head_kd 'D' (Or.inr rfl) hrest hhd
          have hmc : MChain (List.replicate (m + m2) 'D' :: rest2) :=
            MChain.consNonI _ rest2 (COp.drun (m + m2) (by omega))
              (not_isIop_of_head (by rw [replicate_head_some 'D' _ (by omega)]; simp))
              hrest2
          obtain ⟨N, hq1, hq2, hq3⟩ := ih (List.replicate (m + m2) 'D' :: rest2)
            (by rw [hre] at hn; simp only [List.length_cons] at hn ⊢; omega) hmc
          have hflat : (List.replicate (m + m2) 'D' :: rest2).flatten =
              (List.replicate m 'D' :: rest).flatten := by
            rw [hre, List.flatten_cons, List.flatten_cons, List.flatten_cons,
              List.replicate_add, List.append_assoc]
          rw [hflat] at hq1 hq2
          exact ⟨N, hq1, hq2, hq3⟩
        · obtain ⟨N', hp1, hp2, hp3⟩ := ih rest (by simpa using hn) hrest
          refine ⟨List.replicate m 'D' :: N', ?_, ?_, ?_⟩
          · rw [List.flatten_cons,
              findOpsC_replicate 'D' m hm (Or.inl rfl) _ hhd, hp1]
          · simp [hp2]
          · exact MChain.consNonI _ N' (COp.drun m hm)
              (not_isIop_of_head (by rw [replicate_head_some 'D' _ hm]; simp)) hp3
    | consI p rest hp h1 h2 hrest hnI =>
      obtain ⟨N', hp1, hp2, hp3⟩ := ih rest (by simpa using hn) hrest
      have hhd : (rest.flatten).head? ≠ some ']' := mchain_flatten_head_ne_rb hrest
      refine ⟨mkI p :: N', ?_, ?_, ?_⟩
      · rw [List.flatten_cons,
          show mkI p ++ rest.flatten =
            'I' :: '_' :: '[' :: (p ++ [']']) ++ rest.flatten by simp [mkI],
          findOpsC_bracket 'I' p _ (Or.inl rfl) h1 h2 hhd, hp1]
        simp [mkI]
      · simp [hp2]
      · refine MChain.consI p N' hp h1 h2 hp3 ?_
        intro op2 hop2 hiop
        cases hN' : N' with
        | nil => rw [hN'] at hop2; simp at hop2
        | cons op3 rest3 =>
          rw [hN'] at hop2
          simp only [List.head?_cons, Option.mem_def, Option.some_inj] at hop2
          rw [hN'] at hp3
          have hh2 : N'.flatten.head? = some 'I' := by
            rw [hN', mchain_flatten_head hp3 rfl, hop2]
            exact isIop_head hiop
          rw [hp2] at hh2
          cases hre : rest with
          | nil => rw [hre] at hh2; simp at hh2
          | cons op4 rest4 =>
            rw [hre] at hrest hh2
            have hh3 : op4.head? = some 'I' := by
              rw [← mchain_flatten_head hrest rfl]
              exact hh2
            have := mchain_head_I_isIop hrest hh3
            exact hnI op4 (by rw [hre]; simp) this

theorem ciGo_id_mchain_aux : ∀ M, MChain M → ciGo [] M = M ∧
    ∀ ins, ins ≠ [] → (∀ op2 ∈ M.head?, ¬isIop op2) →
      ciGo ins M = mkI ins :: M := by
  intro M hM
  induction hM with
  | nil =>
    refine ⟨by simp [ciGo], ?_⟩
    intro ins hins _
    simp [ciGo, hins]
  | consNonI op ops hop hni hops ih =>
    have hni' : ¬op.take 2 = ['I', '_'] := hni
    constructor
    · unfold ciGo
      rw [if_neg hni', if_neg (by simp), ih.1]
    · intro ins hins _
      unfold ciGo
      rw [if_neg hni', if_pos hins, ih.1]
  | consI p ops hp h1 h2 hops hnI ih =>
    have hip : (mkI p).take 2 = ['I', '_'] := by simp [mkI]
    constructor
    · unfold ciGo
      rw [if_pos hip, stripBr_mkI p h1 h2, List.nil_append]
      exact ih.2 p hp hnI
    · intro ins hins hhd
      exact absurd hip (hhd (mkI p) rfl)

/-- `compress_insertions` is the identity on compressed op chains. -/
theorem ciGo_id_mchain (M : List (List Char)) (hM : MChain M) :
    ciGo [] M = M :=
  (ciGo_id_mchain_aux M hM).1

/-- C7 (counterexample).  Compression is not idempotent on arbitrary tag
strings: on `I_[]]I_[a]` one pass parses the first op with the greedy `\]+`
run as `I_[]]`, strips its brackets to the payload `]`, merges it with `a`
and emits `I_[]a]`; a second pass re-parses `I_[]a]` lazily as the empty
insertion `I_[]` followed by the literal characters `a]`, and the empty
merged insertion payload is dropped, leaving `a]`. -/
theorem compress_edit_idempotent_cex :
    compress_edit (compress_edit ("I_[]]I_[a]".toList)) ≠
      compress_edit ("I_[]]I_[a]".toList) := by
  simp [compress_edit, compress_insertions, ciGo, findOpsC, takeBracket,
    findClose, stripBr, mkI]

/-- C7 (amended): compression is idempotent on every tag string whose
tokenization by the compression regex consists of well-formed ops: runs of
`K`, runs of `D`, bracketed `I_`/`A_`/`R_` ops whose payloads contain
neither `]` nor newline, and other single characters that are not op
letters, brackets, underscore or newline.  (On arbitrary strings — stray
`]` after a bracketed op, or `[`/`_` fragments — idempotence fails, see the
counterexample.) -/
theorem compress_edit_idempotent (t : List Char)
    (hops : ∀ op ∈ findOpsC t, COp op) :
    compress_edit (compress_edit t) = compress_edit t := by
  have hM : MChain (ciGo [] (findOpsC t)) :=
    ciGo_mchain (findOpsC t) hops [] (by simp) (by simp)
  obtain ⟨N, hq1, hq2, hq3⟩ :=
    parse_mflatten (ciGo [] (findOpsC t)).length (ciGo [] (findOpsC t)) le_rfl hM
  unfold compress_edit compress_insertions
  rw [hq1, ciGo_id_mchain N hq3, hq2]

/-- C7 (witness): the amended theorem at the tag `I_[a]I_[b]KK`, whose ops
are two clean insertions and a keep run. -/
theorem compress_edit_idempotent_witness :
    compress_edit (compress_edit ("I_[a]I_[b]KK".toList)) =
      compress_edit ("I_[a]I_[b]KK".toList) :=
  compress_edit_idempotent ("I_[a]I_[b]KK".toList) (by
    intro op hop
    rw [show findOpsC ("I_[a]I_[b]KK".toList) =
        [mkI ['a'], mkI ['b'], List.replicate 2 'K'] by
      simp [findOpsC, takeBracket, findClose, mkI, List.replicate]] at hop
    simp only [List.mem_cons, List.not_mem_nil, or_false] at hop
    rcases hop with h | h | h
    · rw [h]; exact COp.bracket 'I' ['a'] (Or.inl rfl) (by simp) (by simp)
    · rw [h]; exact COp.bracket 'I' ['b'] (Or.inl rfl) (by simp) (by simp)
    · rw [h]; exact COp.krun 2 (by omega))

/-! ## Compression versus application (claim C10)

Tags whose ops are clean for *both* the compression tokenizer and the
applier's char-edit tokenizer: runs of `K`, runs of `D`, insertions with a
non-empty clean payload, replacements with a clean payload, and single
characters that collide with no op syntax (the star is also excluded, since
a `K` or `D` followed by a literal `*` reads as a `K*`/`D*` op to the
applier but as two tokens to the compressor). -/

inductive COpA : List Char → Prop
  | krun (n : Nat) (h : 1 ≤ n) : COpA (List.replicate n 'K')
  | drun (n : Nat) (h : 1 ≤ n) : COpA (List.replicate n 'D')
  | single (c : Char)
      (h : ¬(c = 'K' ∨ c = 'D' ∨ c = 'I' ∨ c = 'A' ∨ c = 'R' ∨
        c = '[' ∨ c = ']' ∨ c = '_' ∨ c = '\n' ∨ c = '*')) : COpA [c]
  | ibr (p : List Char) (hp : p ≠ []) (h1 : ']' ∉ p) (h2 : '\n' ∉ p) :
      COpA (mkI p)
  | rbr (p : List Char) (h1 : ']' ∉ p) (h2 : '\n' ∉ p) : COpA (mkR p)

theorem COpA.copa_ne_nil {op : List Char} (h : COpA op) : op ≠ [] := by
  cases h with
  | krun n hn => simp; omega
  | drun n hn => simp; omega
  | single c h => simp
  | ibr p hp h1 h2 => simp [mkI]
  | rbr p h1 h2 => simp [mkR]

/-- An `I_`-headed op of the class is an insertion with a non-empty clean
payload. -/
theorem COpA.iop_shape_a {op : List Char} (h : COpA op) (hi : isIop op) :
    ∃ p, op = mkI p ∧ p ≠ [] ∧ ']' ∉ p ∧ '\n' ∉ p := by
  cases h with
  | krun n hn =>
    exfalso
    unfold isIop at hi
    cases n with
    | zero => simp [List.replicate] at hi
    | succ n =>
      cases n with
      | zero => simp [List.replicate, List.take] at hi
      | succ n => simp [List.replicate, List.take] at hi
  | drun n hn =>
    exfalso
    unfold isIop at hi
    cases n with
    | zero => simp [List.replicate] at hi
    | succ n =>
      cases n with
      | zero => simp [List.replicate, List.take] at hi
      | succ n => simp [List.replicate, List.take] at hi
  | single c hc =>
    exfalso
    unfold isIop at hi
    simp [List.take] at hi
  | ibr p hp h1 h2 => exact ⟨p, rfl, hp, h1, h2⟩
  | rbr p h1 h2 =>
    exfalso
    unfold isIop at hi
    simp [mkR, List.take] at hi

theorem takeBracket_append (x : Char) (l op rem : List Char)
    (h : takeBracket x l = some (op, rem)) : op ++ rem = x :: l := by
  match l with
  | [] => simp [takeBracket] at h
  | [a] => simp [takeBracket] at h
  | a :: b :: tail =>
    simp only [takeBracket] at h
    split at h
    case isTrue hab =>
      cases hfc : findClose tail with
      | none => rw [hfc] at h; exact absurd h (by simp)
      | some p =>
        obtain ⟨payload, suf⟩ := p
        rw [hfc] at h
        rw [Option.some_inj] at h
        have hop : op = x :: '_' :: '[' :: (payload ++ suf.takeWhile (· = ']')) := by
          have := congrArg Prod.fst h; simpa using this.symm
        have hrem : rem = suf.dropWhile (· = ']') := by
          have := congrArg Prod.snd h; simpa using this.symm
        have htail : tail = payload ++ suf := findClose_eq _ _ _ hfc
        rw [hop, hrem, hab.1, hab.2, htail]
        simp [List.append_assoc, List.takeWhile_append_dropWhile]
    case isFalse => exact absurd h (by simp)

theorem findOpsC_brmatch (c : Char) (rest op rem : List Char)
    (hc : c = 'I' ∨ c = 'R' ∨ c = 'A') (h : takeBracket c rest = some (op, rem)) :
    findOpsC (c :: rest) = op :: findOpsC rem := by
  rw [findOpsC, if_pos hc]
  split
  next op2 rem2 heq =>
    rw [h] at heq
    injection heq with heq
    have h1 : op2 = op := by
      have := congrArg Prod.fst heq; simpa using this.symm
    have h2 : rem2 = rem := by
      have := congrArg Prod.snd heq; simpa using this.symm
    rw [h1, h2]
  next heq => rw [h] at heq; exact absurd heq (by simp)

theorem findOpsC_brnone (c : Char) (rest : List Char)
    (hc : c = 'I' ∨ c = 'R' ∨ c = 'A') (h : takeBracket c rest = none) :
    findOpsC (c :: rest) = [c] :: findOpsC rest := by
  rw [findOpsC, if_pos hc]
  split
  next op2 rem2 heq => rw [h] at heq; exact absurd heq (by simp)
  next heq => rfl

/-- On a newline-free string the compression tokenizer loses nothing:
flattening its ops recovers the string. -/
theorem findOpsC_flatten : ∀ (n : Nat) (t : List Char), t.length ≤ n →
    '\n' ∉ t → (findOpsC t).flatten = t := by
  intro n
  induction n with
  | zero =>
    intro t hn _
    have : t = [] := by
      cases t with
      | nil => rfl
      | cons a b => simp at hn
    rw [this]
    simp [findOpsC]
  | succ n ih =>
    intro t hn hnl
    cases t with
    | nil => simp [findOpsC]
    | cons c rest =>
      simp only [List.mem_cons, not_or] at hnl
      obtain ⟨hc0, hrest0⟩ := hnl
      by_cases hc : c = 'I' ∨ c = 'R' ∨ c = 'A'
      · cases htb : takeBracket c rest with
        | some pr =>
          obtain ⟨op, rem⟩ := pr
          have hopr : op ++ rem = c :: rest := takeBracket_append c rest op rem htb
          rw [findOpsC_brmatch c rest op rem hc htb, List.flatten_cons]
          have hlen : rem.length ≤ n := by
            have := takeBracket_rest_lt c rest op rem htb
            simp only [List.length_cons] at hn
            omega
          have hmem : '\n' ∉ rem := by
            intro hm
            have : ('\n' : Char) ∈ op ++ rem := by simp [hm]
            rw [hopr] at this
            simp only [List.mem_cons] at this
            rcases this with h | h
            · exact hc0 h
            · exact hrest0 h
          rw [ih rem hlen hmem, hopr]
        | none =>
          rw [findOpsC_brnone c rest hc htb, List.flatten_cons]
          rw [ih rest (by simp only [List.length_cons] at hn; omega) hrest0]
          simp
      · by_cases hc2 : c = 'D' ∨ c = 'K'
        · rw [findOpsC_run c rest (by rcases hc2 with h | h <;> simp [h]),
            List.flatten_cons]
          have hsub : (rest.dropWhile (· = c)).Sublist rest := List.dropWhile_sublist _
          rw [ih (rest.dropWhile (· = c))
            (by have := hsub.length_le; simp only [List.length_cons] at hn; omega)
            (fun hm => hrest0 (hsub.mem hm))]
          simp [List.takeWhile_append_dropWhile]
        · rw [findOpsC_single c rest hc hc2 (fun he => hc0 he.symm),
            List.flatten_cons]
          rw [ih rest (by simp only [List.length_cons] at hn; omega) hrest0]
          simp

/-- On an op list with no insertion op, `compress_insertions` is the
identity. -/
theorem ciGo_nonI : ∀ (L : List (List Char)), (∀ op ∈ L, ¬isIop op) →
    ciGo [] L = L := by
  intro L
  induction L with
  | nil => intro _; simp [ciGo]
  | cons op rest ih =>
    intro h
    have hop : ¬op.take 2 = ['I', '_'] := h op (by simp)
    unfold ciGo
    rw [if_neg hop, if_neg (by simp), ih (fun o ho => h o (by simp [ho]))]

theorem copa_flatten_head_ne {X : List (List Char)} (h : ∀ op ∈ X, COpA op) :
    X.flatten.head? ≠ some 'A' ∧ X.flatten.head? ≠ some ']' ∧
      X.flatten.head? ≠ some '*' := by
  cases X with
  | nil => simp
  | cons op rest =>
    have hop := h op (by simp)
    have hh : (op :: rest).flatten.head? = op.head? := by
      rw [List.flatten_cons]
      exact List.head?_append_of_ne_nil _ hop.copa_ne_nil
    rw [hh]
    cases hop with
    | krun n hn => rw [replicate_head_some 'K' n hn]; exact ⟨by simp, by simp, by simp⟩
    | drun n hn => rw [replicate_head_some 'D' n hn]; exact ⟨by simp, by simp, by simp⟩
    | single c hc =>
      simp only [List.head?_cons]
      refine ⟨?_, ?_, ?_⟩ <;>
        (intro he; injection he with he; rw [he] at hc; simp at hc)
    | ibr p hp h1 h2 => simp [mkI]
    | rbr p h1 h2 => simp [mkR]

theorem findOpsA_bracket (x : Char) (p s : List Char)
    (hx : x = 'I' ∨ x = 'A' ∨ x = 'R') (h1 : ']' ∉ p) (h2 : '\n' ∉ p)
    (hs : s.head? ≠ some ']') :
    findOpsA (x :: '_' :: '[' :: (p ++ [']']) ++ s) =
      (x :: '_' :: '[' :: (p ++ [']'])) :: findOpsA s := by
  rw [show (x :: '_' :: '[' :: (p ++ [']']) ++ s) =
    x :: ('_' :: '[' :: (p ++ ']' :: s)) by simp]
  rw [findOpsA, if_pos hx, takeBracket_clean x p s h1 h2 hs]

theorem findOpsA_other (c : Char) (rest : List Char)
    (hc1 : ¬(c = 'I' ∨ c = 'A' ∨ c = 'R'))
    (hc2 : ¬((c = 'K' ∨ c = 'D') ∧ rest.head? = some '*'))
    (hc3 : ¬c = '\n') :
    findOpsA (c :: rest) = [c] :: findOpsA rest := by
  rw [findOpsA, if_neg hc1, if_neg hc2, if_neg hc3]

theorem findOpsA_crep (c : Char) (hc : c = 'K' ∨ c = 'D') :
    ∀ (n : Nat) (f : List Char), f.head? ≠ some '*' →
    findOpsA (List.replicate n c ++ f) = List.replicate n [c] ++ findOpsA f := by
  intro n
  induction n with
  | zero => intro f _; simp
  | succ n ih =>
    intro f hf
    rw [List.replicate_succ, List.cons_append]
    rw [findOpsA_other c _ (by rcases hc with h | h <;> simp [h]) ?hstar
      (by rcases hc with h | h <;> simp [h])]
    · rw [ih f hf, List.replicate_succ, List.cons_append]
    case hstar =>
      intro hcon
      cases n with
      | zero =>
        rw [List.replicate_zero, List.nil_append] at hcon
        exact hf hcon.2
      | succ n =>
        rw [List.replicate_succ, List.cons_append] at hcon
        have := hcon.2
        simp only [List.head?_cons] at this
        injection this with this
        rcases hc with h | h <;> rw [h] at this <;> exact absurd this (by decide)

/-- How the applier's tokenizer re-reads a single compression op: `K`/`D`
runs split into single-character ops, everything else is one token. -/
def expandA (op : List Char) : List (List Char) :=
  if op.head? = some 'K' ∨ op.head? = some 'D' then op.map (fun c => [c])
  else [op]

/-- The applier's tokenizer on the flattening of clean compression ops:
each op expands independently. -/
theorem findOpsA_expand : ∀ (X : List (List Char)), (∀ op ∈ X, COpA op) →
    findOpsA X.flatten = (X.map expandA).flatten := by
  intro X
  induction X with
  | nil => intro _; simp [findOpsA]
  | cons op rest ih =>
    intro h
    have hop := h op (by simp)
    have hrest : ∀ o ∈ rest, COpA o := fun o ho => h o (by simp [ho])
    have hne := copa_flatten_head_ne hrest
    rw [List.flatten_cons, List.map_cons, List.flatten_cons]
    cases hop with
    | krun n hn =>
      have hexp : expandA (List.replicate n 'K') = List.replicate n ['K'] := by
        rw [expandA, if_pos (Or.inl (replicate_head_some 'K' n hn))]
        simp [List.map_replicate]
      rw [findOpsA_crep 'K' (Or.inl rfl) n _ hne.2.2, ih hrest, hexp]
    | drun n hn =>
      have hexp : expandA (List.replicate n 'D') = List.replicate n ['D'] := by
        rw [expandA, if_pos (Or.inr (replicate_head_some 'D' n hn))]
        simp [List.map_replicate]
      rw [findOpsA_crep 'D' (Or.inr rfl) n _ hne.2.2, ih hrest, hexp]
    | single c hc =>
      simp only [not_or] at hc
      obtain ⟨hK, hD, hI, hA, hR, hLB, hRB, hU, hN, hS⟩ := hc
      have hexp : expandA [c] = [[c]] := by
        rw [expandA, if_neg (by simp [hK, hD])]
      rw [List.singleton_append,
        findOpsA_other c _ (by simp [hI, hA, hR])
          (by intro hcon; rcases hcon.1 with h | h
              · exact hK h
              · exact hD h)
          hN,
        ih hrest, hexp, List.singleton_append]
    | ibr p hp h1 h2 =>
      have hexp : expandA (mkI p) = [mkI p] := by
        rw [expandA, if_neg (by simp [mkI])]
      rw [show mkI p ++ rest.flatten =
          'I' :: '_' :: '[' :: (p ++ [']']) ++ rest.flatten by simp [mkI],
        findOpsA_bracket 'I' p _ (Or.inl rfl) h1 h2 hne.2.1, ih hrest, hexp,
        List.singleton_append]
      rfl
    | rbr p h1 h2 =>
      have hexp : expandA (mkR p) = [mkR p] := by
        rw [expandA, if_neg (by simp [mkR])]
      rw [show mkR p ++ rest.flatten =
          'R' :: '_' :: '[' :: (p ++ [']']) ++ rest.flatten by simp [mkR],
        findOpsA_bracket 'R' p _ (Or.inr (Or.inr rfl)) h1 h2 hne.2.1, ih hrest,
        hexp, List.singleton_append]
      rfl

/-- The char-edit loop's op position `i` only matters to `A_`-headed ops
(their space placement tests `i != 0`); with no append op the loop's result
is independent of it. -/
theorem applyCE_i_irrel : ∀ (ops : List (List Char)),
    (∀ e ∈ ops, e.head? ≠ some 'A') →
    ∀ (s : List Char) (idx i j : Nat),
    SubwordEdit.applyCE s idx i ops = SubwordEdit.applyCE s idx j ops := by
  intro ops
  induction ops with
  | nil => intro _ s idx i j; rfl
  | cons e rest ih =>
    intro h s idx i j
    have he := h e (by simp)
    have hrest : ∀ x ∈ rest, x.head? ≠ some 'A' := fun x hx => h x (by simp [hx])
    simp only [SubwordEdit.applyCE]
    by_cases h1 : e = ['K']
    · rw [if_pos h1, if_pos h1]
      cases s[idx]? with
      | none => rfl
      | some ch =>
        exact congrArg (Option.map (ch :: ·)) (ih hrest s (idx + 1) (i + 1) (j + 1))
    · rw [if_neg h1, if_neg h1]
      by_cases h2 : e = ['D']
      · rw [if_pos h2, if_pos h2]
        exact ih hrest s (idx + 1) (i + 1) (j + 1)
      · rw [if_neg h2, if_neg h2]
        by_cases h3 : e.head? = some 'I'
        · rw [if_pos h3, if_pos h3]
          exact congrArg _ (ih hrest s idx (i + 1) (j + 1))
        · rw [if_neg h3, if_neg h3, if_neg he, if_neg he]
          by_cases h5 : e = ['K', '*']
          · rw [if_pos h5, if_pos h5]
            exact congrArg _ (ih hrest s _ (i + 1) (j + 1))
          · rw [if_neg h5, if_neg h5]
            by_cases h6 : e = ['D', '*']
            · rw [if_pos h6, if_pos h6]
              exact ih hrest s _ (i + 1) (j + 1)
            · rw [if_neg h6, if_neg h6]
              by_cases h7 : e.head? = some 'R'
              · rw [if_pos h7, if_pos h7]
                exact congrArg _ (ih hrest s (idx + 1) (i + 1) (j + 1))
              · rw [if_neg h7, if_neg h7]
                exact ih hrest s idx (i + 1) (j + 1)

/-- Ops that read the piece the same way regardless of what follows them:
`K`, `D`, inert single characters, and `R_[...]` replacements. -/
inductive AtomNA : List Char → Prop
  | k : AtomNA ['K']
  | d : AtomNA ['D']
  | single (c : Char)
      (h : ¬(c = 'K' ∨ c = 'D' ∨ c = 'I' ∨ c = 'A' ∨ c = 'R' ∨
        c = '[' ∨ c = ']' ∨ c = '_' ∨ c = '\n' ∨ c = '*')) : AtomNA [c]
  | rbr (p : List Char) : AtomNA (mkR p)

/-- Walking the char-edit loop through a common prefix of such atoms
preserves any equivalence (at all cursors and op positions) of the two
remaining op lists. -/
theorem applyCE_append_atoms : ∀ (P : List (List Char)), (∀ e ∈ P, AtomNA e) →
    ∀ (s : List Char) (rest1 rest2 : List (List Char)),
    (∀ idx i j, SubwordEdit.applyCE s idx i rest1 = SubwordEdit.applyCE s idx j rest2) →
    ∀ idx i j, SubwordEdit.applyCE s idx i (P ++ rest1) = SubwordEdit.applyCE s idx j (P ++ rest2) := by
  intro P
  induction P with
  | nil => intro _ s r1 r2 hrec idx i j; exact hrec idx i j
  | cons e P' ih =>
    intro h s r1 r2 hrec idx i j
    have he := h e (by simp)
    have hP' : ∀ x ∈ P', AtomNA x := fun x hx => h x (by simp [hx])
    rw [List.cons_append, List.cons_append]
    have hrec' := ih hP' s r1 r2 hrec
    cases he with
    | k =>
      have hred : ∀ (r : List (List Char)) (i : Nat),
          SubwordEdit.applyCE s idx i (['K'] :: r) =
            match s[idx]? with
            | some ch => (SubwordEdit.applyCE s (idx + 1) (i + 1) r).map (ch :: ·)
            | none => none := fun r i => rfl
      rw [hred, hred]
      cases s[idx]? with
      | none => rfl
      | some ch =>
        exact congrArg (Option.map (ch :: ·)) (hrec' (idx + 1) (i + 1) (j + 1))
    | d => exact hrec' (idx + 1) (i + 1) (j + 1)
    | single c hc =>
      simp only [not_or] at hc
      obtain ⟨hK, hD, hI, hA, hR, hLB, hRB, hU, hN, hS⟩ := hc
      simp only [SubwordEdit.applyCE]
      rw [if_neg (show ¬([c] = ['K']) by simp [hK]),
        if_neg (show ¬([c] = ['D']) by simp [hD]),
        if_neg (show ¬([c].head? = some 'I') by simp [hI]),
        if_neg (show ¬([c].head? = some 'A') by simp [hA]),
        if_neg (show ¬([c] = ['K', '*']) by simp [hK]),
        if_neg (show ¬([c] = ['D', '*']) by simp [hD]),
        if_neg (show ¬([c].head? = some 'R') by simp [hR]),
        if_neg (show ¬([c] = ['K']) by simp [hK]),
        if_neg (show ¬([c] = ['D']) by simp [hD]),
        if_neg (show ¬([c].head? = some 'I') by simp [hI]),
        if_neg (show ¬([c].head? = some 'A') by simp [hA]),
        if_neg (show ¬([c] = ['K', '*']) by simp [hK]),
        if_neg (show ¬([c] = ['D', '*']) by simp [hD]),
        if_neg (show ¬([c].head? = some 'R') by simp [hR])]
      exact hrec' idx (i + 1) (j + 1)
    | rbr p =>
      exact congrArg (Option.map (stripBr (mkR p) ++ ·))
        (hrec' (idx + 1) (i + 1) (j + 1))

theorem expandA_atoms {op : List Char} (h : COpA op) (hni : ¬isIop op) :
    ∀ e ∈ expandA op, AtomNA e := by
  cases h with
  | krun n hn =>
    intro e he
    rw [expandA, if_pos (Or.inl (replicate_head_some 'K' n hn)),
      List.map_replicate] at he
    rw [List.eq_of_mem_replicate he]
    exact AtomNA.k
  | drun n hn =>
    intro e he
    rw [expandA, if_pos (Or.inr (replicate_head_some 'D' n hn)),
      List.map_replicate] at he
    rw [List.eq_of_mem_replicate he]
    exact AtomNA.d
  | single c hc =>
    intro e he
    rw [expandA, if_neg (by simp only [not_or] at hc; simp [hc.1, hc.2.1])] at he
    simp only [List.mem_singleton] at he
    rw [he]
    exact AtomNA.single c hc
  | ibr p hp h1 h2 =>
    exact absurd (by simp [isIop, mkI]) hni
  | rbr p h1 h2 =>
    intro e he
    rw [expandA, if_neg (by simp [mkR])] at he
    simp only [List.mem_singleton] at he
    rw [he]
    exact AtomNA.rbr p

theorem expandA_head_ne_A {op : List Char} (h : COpA op) :
    ∀ e ∈ expandA op, e.head? ≠ some 'A' := by
  cases h with
  | krun n hn =>
    intro e he
    rw [expandA, if_pos (Or.inl (replicate_head_some 'K' n hn)),
      List.map_replicate] at he
    rw [List.eq_of_mem_replicate he]
    simp
  | drun n hn =>
    intro e he
    rw [expandA, if_pos (Or.inr (replicate_head_some 'D' n hn)),
      List.map_replicate] at he
    rw [List.eq_of_mem_replicate he]
    simp
  | single c hc =>
    intro e he
    rw [expandA, if_neg (by simp only [not_or] at hc; simp [hc.1, hc.2.1])] at he
    simp only [List.mem_singleton] at he
    rw [he]
    simp only [List.head?_cons]
    intro hcon
    injection hcon with hcon
    rw [hcon] at hc
    simp at hc
  | ibr p hp h1 h2 =>
    intro e he
    rw [expandA, if_neg (by simp [mkI])] at he
    simp only [List.mem_singleton] at he
    rw [he]
    simp [mkI]
  | rbr p h1 h2 =>
    intro e he
    rw [expandA, if_neg (by simp [mkR])] at he
    simp only [List.mem_singleton] at he
    rw [he]
    simp [mkR]

theorem ea_no_A {X : List (List Char)} (h : ∀ op ∈ X, COpA op) :
    ∀ e ∈ (X.map expandA).flatten, e.head? ≠ some 'A' := by
  intro e he
  rw [List.mem_flatten] at he
  obtain ⟨Y, hY, heY⟩ := he
  rw [List.mem_map] at hY
  obtain ⟨op, hop, hYe⟩ := hY
  rw [← hYe] at heY
  exact expandA_head_ne_A (h op hop) e heY

/-- `compress_insertions` maps clean compression ops to clean compression
ops: non-insertion ops survive, and merged insertions keep non-empty clean
payloads. -/
theorem ciGo_copa : ∀ (L : List (List Char)), (∀ op ∈ L, COpA op) →
    ∀ ins, ']' ∉ ins → '\n' ∉ ins → ∀ op2 ∈ ciGo ins L, COpA op2 := by
  intro L
  induction L with
  | nil =>
    intro _ ins h1 h2
    unfold ciGo
    by_cases hne : ins ≠ []
    · rw [if_pos hne]
      intro op2 hop2
      simp only [List.mem_singleton] at hop2
      rw [hop2]
      exact COpA.ibr ins hne h1 h2
    · rw [if_neg hne]
      simp
  | cons op rest ih =>
    intro h ins h1 h2
    have hop := h op (by simp)
    have hrest : ∀ o ∈ rest, COpA o := fun o ho => h o (by simp [ho])
    unfold ciGo
    by_cases hi : op.take 2 = ['I', '_']
    · rw [if_pos hi]
      obtain ⟨p, hshape, hp, hp1, hp2⟩ := hop.iop_shape_a hi
      rw [hshape, stripBr_mkI p hp1 hp2]
      exact ih hrest (ins ++ p) (by simp [h1, hp1]) (by simp [h2, hp2])
    · rw [if_neg hi]
      by_cases hne : ins ≠ []
      · rw [if_pos hne]
        intro op2 hop2
        simp only [List.mem_cons] at hop2
        rcases hop2 with he | he | he
        · rw [he]; exact COpA.ibr ins hne h1 h2
        · rw [he]; exact hop
        · exact ih hrest [] (by simp) (by simp) op2 he
      · rw [if_neg hne]
        intro op2 hop2
        simp only [List.mem_cons] at hop2
        rcases hop2 with he | he
        · rw [he]; exact hop
        · exact ih hrest [] (by simp) (by simp) op2 he

/-- If the tag has an insertion op (or a pending merged payload), the
compressed op list still has an insertion op. -/
theorem ciGo_has_iop : ∀ (L : List (List Char)), (∀ op ∈ L, COpA op) →
    ∀ ins, (ins ≠ [] ∨ ∃ op ∈ L, isIop op) →
    ∃ op2 ∈ ciGo ins L, isIop op2 := by
  intro L
  induction L with
  | nil =>
    intro _ ins hd
    have hne : ins ≠ [] := by
      rcases hd with h | h
      · exact h
      · simp at h
    unfold ciGo
    rw [if_pos hne]
    exact ⟨mkI ins, by simp, by simp [isIop, mkI]⟩
  | cons op rest ih =>
    intro h ins hd
    have hop := h op (by simp)
    have hrest : ∀ o ∈ rest, COpA o := fun o ho => h o (by simp [ho])
    unfold ciGo
    by_cases hi : op.take 2 = ['I', '_']
    · rw [if_pos hi]
      obtain ⟨p, hshape, hp, hp1, hp2⟩ := hop.iop_shape_a hi
      rw [hshape, stripBr_mkI p hp1 hp2]
      exact ih hrest (ins ++ p) (Or.inl (by simp [hp]))
    · rw [if_neg hi]
      by_cases hne : ins ≠ []
      · rw [if_pos hne]
        exact ⟨mkI ins, by simp, by simp [isIop, mkI]⟩
      · rw [if_neg hne]
        have hex : ∃ o ∈ rest, isIop o := by
          rcases hd with h' | h'
          · exact absurd h' hne
          · obtain ⟨o, ho, hio⟩ := h'
            simp only [List.mem_cons] at ho
            rcases ho with he | he
            · rw [he] at hio; exact absurd hio hi
            · exact ⟨o, he, hio⟩
        obtain ⟨o2, ho2, hio2⟩ := ih hrest [] (Or.inr hex)
        exact ⟨o2, by simp [ho2], hio2⟩

theorem option_map_append (o : Option (List Char)) (a b : List Char) :
    (o.map (b ++ ·)).map (a ++ ·) = o.map ((a ++ b) ++ ·) := by
  cases o <;> simp

theorem option_map_nil_append (o : Option (List Char)) :
    o.map (([] : List Char) ++ ·) = o := by
  cases o <;> simp

/-- Running the char-edit loop over the expanded compressed ops equals
running it over the expanded original ops, with the pending merged payload
`ins` prepended to the output. -/
theorem applyCE_ciGo : ∀ (L : List (List Char)), (∀ op ∈ L, COpA op) →
    ∀ (ins : List Char), ']' ∉ ins → '\n' ∉ ins →
    ∀ (s : List Char) (idx : Nat),
    SubwordEdit.applyCE s idx 0 (((ciGo ins L).map expandA).flatten) =
      (SubwordEdit.applyCE s idx 0 ((L.map expandA).flatten)).map (ins ++ ·) := by
  intro L
  induction L with
  | nil =>
    intro _ ins h1 h2 s idx
    unfold ciGo
    by_cases hne : ins ≠ []
    · rw [if_pos hne]
      have hexp : expandA (mkI ins) = [mkI ins] := by
        rw [expandA, if_neg (by simp [mkI])]
      simp only [List.map_cons, List.map_nil, hexp, List.flatten_cons,
        List.flatten_nil, List.append_nil]
      have hred : SubwordEdit.applyCE s idx 0 [mkI ins] =
          (SubwordEdit.applyCE s idx 1 ([] : List (List Char))).map
            (stripBr (mkI ins) ++ ·) := rfl
      rw [hred, stripBr_mkI ins h1 h2]
      rfl
    · rw [if_neg hne]
      have hins : ins = [] := not_not.mp hne
      rw [hins]
      simp only [List.map_nil, List.flatten_nil]
      rw [option_map_nil_append]
  | cons op L' ih =>
    intro h ins h1 h2 s idx
    have hop := h op (by simp)
    have hL' : ∀ o ∈ L', COpA o := fun o ho => h o (by simp [ho])
    have hrec : ∀ idx' i' j',
        SubwordEdit.applyCE s idx' i' (((ciGo [] L').map expandA).flatten) =
          SubwordEdit.applyCE s idx' j' ((L'.map expandA).flatten) := by
      intro idx' i' j'
      have e1 := applyCE_i_irrel _
        (ea_no_A (fun o ho => ciGo_copa L' hL' [] (by simp) (by simp) o ho))
        s idx' i' 0
      have e2 := applyCE_i_irrel _ (ea_no_A hL') s idx' 0 j'
      rw [e1, ih hL' [] (by simp) (by simp) s idx', option_map_nil_append, e2]
    unfold ciGo
    by_cases hi : op.take 2 = ['I', '_']
    · rw [if_pos hi]
      obtain ⟨p, hshape, hp, hp1, hp2⟩ := hop.iop_shape_a hi
      rw [hshape, stripBr_mkI p hp1 hp2]
      rw [ih hL' (ins ++ p) (by simp [h1, hp1]) (by simp [h2, hp2]) s idx]
      have hexp : expandA (mkI p) = [mkI p] := by
        rw [expandA, if_neg (by simp [mkI])]
      rw [List.map_cons, hexp, List.flatten_cons, List.singleton_append]
      have hIred : SubwordEdit.applyCE s idx 0
          (mkI p :: (L'.map expandA).flatten) =
          (SubwordEdit.applyCE s idx 1 ((L'.map expandA).flatten)).map
            (stripBr (mkI p) ++ ·) := rfl
      rw [hIred, stripBr_mkI p hp1 hp2]
      rw [applyCE_i_irrel _ (ea_no_A hL') s idx 1 0]
      rw [option_map_append]
    · rw [if_neg hi]
      by_cases hne : ins ≠ []
      · rw [if_pos hne]
        rw [List.map_cons, List.map_cons]
        have hexp : expandA (mkI ins) = [mkI ins] := by
          rw [expandA, if_neg (by simp [mkI])]
        rw [hexp, List.flatten_cons, List.singleton_append, List.flatten_cons]
        have hIred : SubwordEdit.applyCE s idx 0
            (mkI ins :: (expandA op ++ ((ciGo [] L').map expandA).flatten)) =
            (SubwordEdit.applyCE s idx 1
              (expandA op ++ ((ciGo [] L').map expandA).flatten)).map
              (stripBr (mkI ins) ++ ·) := rfl
        rw [hIred, stripBr_mkI ins h1 h2]
        rw [applyCE_append_atoms (expandA op) (expandA_atoms hop hi) s _ _
          hrec idx 1 0]
        rw [List.map_cons, List.flatten_cons]
      · rw [if_neg hne]
        rw [List.map_cons, List.flatten_cons, List.map_cons, List.flatten_cons]
        rw [applyCE_append_atoms (expandA op) (expandA_atoms hop hi) s _ _
          hrec idx 0 0]
        have hins : ins = [] := not_not.mp hne
        rw [hins, option_map_nil_append]

theorem copa_flatten_two {X : List (List Char)} (h : ∀ op ∈ X, COpA op) :
    X.flatten[1]? ≠ some 'A' := by
  cases X with
  | nil => simp
  | cons op rest =>
    have hop := h op (by simp)
    have hrest : ∀ o ∈ rest, COpA o := fun o ho => h o (by simp [ho])
    have hhd := (copa_flatten_head_ne hrest).1
    rw [List.flatten_cons]
    cases hop with
    | krun n hn =>
      obtain ⟨n', rfl⟩ : ∃ n', n = n' + 1 := ⟨n - 1, by omega⟩
      rw [List.replicate_succ, List.cons_append, List.getElem?_cons_succ]
      cases n' with
      | zero =>
        rw [List.replicate_zero, List.nil_append, ← List.head?_eq_getElem?]
        exact hhd
      | succ n'' =>
        rw [List.replicate_succ, List.cons_append, List.getElem?_cons_zero]
        simp
    | drun n hn =>
      obtain ⟨n', rfl⟩ : ∃ n', n = n' + 1 := ⟨n - 1, by omega⟩
      rw [List.replicate_succ, List.cons_append, List.getElem?_cons_succ]
      cases n' with
      | zero =>
        rw [List.replicate_zero, List.nil_append, ← List.head?_eq_getElem?]
        exact hhd
      | succ n'' =>
        rw [List.replicate_succ, List.cons_append, List.getElem?_cons_zero]
        simp
    | single c hc =>
      rw [List.cons_append, List.nil_append, List.getElem?_cons_succ,
        ← List.head?_eq_getElem?]
      exact hhd
    | ibr p hp h1 h2 =>
      rw [show mkI p ++ rest.flatten =
        'I' :: '_' :: ('[' :: p ++ ']' :: rest.flatten) by simp [mkI]]
      rw [List.getElem?_cons_succ, List.getElem?_cons_zero]
      simp
    | rbr p h1 h2 =>
      rw [show mkR p ++ rest.flatten =
        'R' :: '_' :: ('[' :: p ++ ']' :: rest.flatten) by simp [mkR]]
      rw [List.getElem?_cons_succ, List.getElem?_cons_zero]
      simp

theorem copa_mem_I {X : List (List Char)} (h : ∃ op ∈ X, isIop op) :
    'I' ∈ X.flatten := by
  obtain ⟨op, hop, hiop⟩ := h
  rw [List.mem_flatten]
  refine ⟨op, hop, ?_⟩
  have hh := isIop_head hiop
  cases op with
  | nil => simp at hh
  | cons a op' =>
    simp only [List.head?_cons] at hh
    injection hh with hh
    simp [hh]

theorem apply_no_shortcut (e s : List Char) (hI : 'I' ∈ e)
    (h2 : e[1]? ≠ some 'A') :
    SubwordEdit.apply e s =
      (SubwordEdit.applyCE (replaceHH s) 0 0 (findOpsA e)).map fun r =>
        if containsHH s then '#' :: '#' :: r else r := by
  rw [SubwordEdit.apply,
    if_neg (by intro he; rw [he] at hI; simp at hI),
    if_neg ?hka, if_neg ?hda]
  case hka =>
    intro he
    apply h2
    have h' : (e.take 2)[1]? = e[1]? := by
      rw [List.getElem?_take, if_pos (by omega)]
    rw [← h', he]
    rfl
  case hda =>
    intro he
    apply h2
    have h' : (e.take 2)[1]? = e[1]? := by
      rw [List.getElem?_take, if_pos (by omega)]
    rw [← h', he]
    rfl

/-- C10 (counterexample).  Compression can change what a tag does: the tag
`I_[]]I_[a]` applied to the empty piece inserts `]` and `a`, but its
compression `I_[]a]` re-reads as an empty insertion followed by the inert
literal characters `a` and `]`, so applying it inserts nothing. -/
theorem compress_preserves_apply_cex :
    SubwordEdit.apply (compress_edit ("I_[]]I_[a]".toList)) [] ≠
      SubwordEdit.apply ("I_[]]I_[a]".toList) [] := by
  simp [SubwordEdit.apply, SubwordEdit.applyCE, compress_edit,
    compress_insertions, ciGo, findOpsC, findOpsA, takeBracket, findClose,
    stripBr, replaceHH, containsHH, mkI]

/-- C10 (amended): on every tag with no newline whose ops under the
compression tokenizer are clean — runs of `K`, runs of `D`, insertions
`I_[...]` with non-empty payloads free of `]` and newline, replacements
`R_[...]` with payloads free of `]` and newline, and single characters
that collide with no op syntax (in particular not `A`, `*`, `[`, `]`,
`_`) — applying the compressed tag to any piece gives the same result as
applying the original tag.  (With appends, stray brackets, stars or empty
payloads in range, compression can change behavior, see the
counterexample.) -/
theorem compress_preserves_apply (t s : List Char)
    (hnl : '\n' ∉ t) (hops : ∀ op ∈ findOpsC t, COpA op) :
    SubwordEdit.apply (compress_edit t) s = SubwordEdit.apply t s := by
  have hT2 : (findOpsC t).flatten = t := findOpsC_flatten t.length t le_rfl hnl
  by_cases hI : ∃ op ∈ findOpsC t, isIop op
  · have hC : ∀ op2 ∈ ciGo [] (findOpsC t), COpA op2 :=
      ciGo_copa (findOpsC t) hops [] (by simp) (by simp)
    have hct : compress_edit t = (ciGo [] (findOpsC t)).flatten := rfl
    have hIt : 'I' ∈ t := by rw [← hT2]; exact copa_mem_I hI
    have hIct : 'I' ∈ compress_edit t := by
      rw [hct]
      exact copa_mem_I (ciGo_has_iop (findOpsC t) hops [] (Or.inr hI))
    have h2t : t[1]? ≠ some 'A' := by
      rw [← hT2]; exact copa_flatten_two hops
    have h2ct : (compress_edit t)[1]? ≠ some 'A' := by
      rw [hct]; exact copa_flatten_two hC
    rw [apply_no_shortcut _ s hIct h2ct, apply_no_shortcut _ s hIt h2t]
    have hfa_t : findOpsA t = ((findOpsC t).map expandA).flatten := by
      have hx := findOpsA_expand (findOpsC t) hops
      rw [hT2] at hx
      exact hx
    have hfa_ct : findOpsA (compress_edit t) =
        ((ciGo [] (findOpsC t)).map expandA).flatten := by
      rw [hct]
      exact findOpsA_expand _ hC
    rw [hfa_t, hfa_ct,
      applyCE_ciGo (findOpsC t) hops [] (by simp) (by simp) (replaceHH s) 0,
      option_map_nil_append]
  · have hid : ciGo [] (findOpsC t) = findOpsC t := by
      apply ciGo_nonI
      intro op hop hiop
      exact hI ⟨op, hop, hiop⟩
    rw [show compress_edit t = t by
      rw [compress_edit, compress_insertions, hid, hT2]]

/-- C10 (witness): the amended theorem at tag `I_[a]I_[b]KK` and piece
`xy`; both the original and the compressed tag `I_[ab]KK` produce `abxy`. -/
theorem compress_preserves_apply_witness :
    SubwordEdit.apply (compress_edit ("I_[a]I_[b]KK".toList)) ("xy".toList) =
      SubwordEdit.apply ("I_[a]I_[b]KK".toList) ("xy".toList) :=
  compress_preserves_apply ("I_[a]I_[b]KK".toList) ("xy".toList)
    (by decide)
    (by
      intro op hop
      rw [show findOpsC ("I_[a]I_[b]KK".toList) =
          [mkI ['a'], mkI ['b'], List.replicate 2 'K'] by
        simp [findOpsC, takeBracket, findClose, mkI, List.replicate]] at hop
      simp only [List.mem_cons, List.not_mem_nil, or_false] at hop
      rcases hop with h | h | h
      · rw [h]; exact COpA.ibr ['a'] (by simp) (by simp) (by simp)
      · rw [h]; exact COpA.ibr ['b'] (by simp) (by simp) (by simp)
      · rw [h]; exact COpA.krun 2 (by omega))
